import Mathlib

/-!
Shallow embedding of `opm/input/eclipse/EclipseState/Grid/NNC.cpp` (the NNC
resolution engine) and proofs of the specification claims about it.

Conventions of the embedding:
* `std::size_t` values are modelled as `Nat`; where the C++ code casts a
  (possibly negative) `int` to `size_t`, the cast is modelled explicitly as
  reduction modulo `2 ^ 64` (`sizeT`).
* `double` transmissibility values are modelled by an abstract value type `V`
  carrying multiplication, `1` and `0` with decidable equality: the engine
  only copies values, compares them to `1.0` and multiplies them, so this is
  all the structure the code uses.  General theorems hold for every such `V`;
  concrete evaluations instantiate `V` with `Int`.
* The external collaborators (`EclipseGrid`, `Deck`/`DeckRecord`,
  `KeywordLocation`, `NNCdata` from `NNC.hpp`) are not part of the sources;
  they are modelled from the spec at their interface, as noted on each
  definition.
-/

/-- Modelled from the spec: the external grid collaborator (`EclipseGrid`, not
part of the sources).  It provides the three extents (`getNX/getNY/getNZ`),
the active-cell predicate `cellActive(i,j,k)` and the flattened
coordinate-to-global-index map `getGlobalIndex(i,j,k)` (bijective within
active cells; kept abstract here). -/
structure Grid where
  nx : Nat
  ny : Nat
  nz : Nat
  active : Nat → Nat → Nat → Bool
  gIndex : Nat → Nat → Nat → Nat

/-- Modelled from the spec: a record of the record-source collaborator
(`DeckRecord`, not part of the sources).  Each record exposes seven fields:
two 1-based coordinate triples (C++ `int`, modelled as `Int`) and one numeric
value.  Unit conversion (`getSIDouble`) is the collaborator's concern; `value`
is the numeric value the engine receives. -/
structure DeckRecord (V : Type) where
  i1 : Int
  j1 : Int
  k1 : Int
  i2 : Int
  j2 : Int
  k2 : Int
  value : V

/-- Modelled from the spec: `record.getItem(n).get<int>(0)` for the six
coordinate items (items 0..5). -/
def DeckRecord.item {V : Type} (r : DeckRecord V) : Nat → Int
  | 0 => r.i1
  | 1 => r.j1
  | 2 => r.k1
  | 3 => r.i2
  | 4 => r.j2
  | 5 => r.k2
  | _ => 0

/-- Modelled from the spec: one keyword occurrence, an ordered sequence of
records plus a source location for provenance (locations are abstract
tokens). -/
structure DeckKeyword (V : Type) where
  records : List (DeckRecord V)
  location : Nat

/-- Modelled from the spec: the record-source collaborator yields three
independent groups of keyword occurrences (`NNC`, `EDITNNC`, `EDITNNCR`),
each an ordered list. -/
structure Deck (V : Type) where
  nnc : List (DeckKeyword V)
  editnnc : List (DeckKeyword V)
  editnncr : List (DeckKeyword V)

/-- The `static_cast<size_t>` of an integer: reduction modulo `2 ^ 64`. -/
def sizeT (x : Int) : Nat := (x % (2 ^ 64 : Int)).toNat

/-- Embedding of the anonymous-namespace helper `global_index` (NNC.cpp lines
39-57): converts one 1-based triple of the record (items `item_offset` ..
`item_offset + 2`) to 0-based coordinates via the `size_t` cast, rejects a
coordinate `≥` the axis extent or an inactive cell, and otherwise returns the
grid's global index. -/
def global_index {V : Type} (grid : Grid) (record : DeckRecord V) (item_offset : Nat) :
    Option Nat :=
  let i := sizeT (record.item (0 + item_offset) - 1)
  let j := sizeT (record.item (1 + item_offset) - 1)
  let k := sizeT (record.item (2 + item_offset) - 1)
  if grid.nx ≤ i then none
  else if grid.ny ≤ j then none
  else if grid.nz ≤ k then none
  else if grid.active i j k = false then none
  else some (grid.gIndex i j k)

/-- Embedding of `make_index_pair` (NNC.cpp lines 60-73): resolves both
triples, fails if either fails, and returns the pair with the smaller global
index first. -/
def make_index_pair {V : Type} (grid : Grid) (record : DeckRecord V) :
    Option (Nat × Nat) :=
  match global_index grid record 0, global_index grid record 3 with
  | some g1, some g2 => if g1 < g2 then some (g1, g2) else some (g2, g1)
  | _, _ => none

/-- Embedding of `is_neighbor` (NNC.cpp lines 75-90): the difference `g2 - g1`
is computed in `size_t` arithmetic and compared against `0`, `1`, `getNX()`
and `getNY()`. -/
def is_neighbor (grid : Grid) (g1 g2 : Nat) : Bool :=
  let diff := sizeT ((g2 : Int) - (g1 : Int))
  if diff = 0 then true
  else if diff = 1 then true
  else if diff = grid.nx then true
  else if diff = grid.ny then true
  else false

/-- Modelled from the spec: `NNCdata` (declared in `NNC.hpp`, not part of the
sources): a cell pair plus a numeric value. -/
structure NNCdata (V : Type) where
  cell1 : Nat
  cell2 : Nat
  trans : V
deriving DecidableEq

/-- Modelled from the spec: the strict comparison on `NNCdata` (declared in
`NNC.hpp`, not part of the sources) used by `std::sort`, `std::stable_sort`,
`std::lower_bound`, `std::unique` and `std::set_difference` in NNC.cpp.  It
compares the cell pair lexicographically and ignores the value: every
key-driven operation the spec describes (the purge is a "set-difference by
key", deduplication keeps one entry per key group whose members were made
consecutive by the stable sort, the merge re-seeks "to the first
`connections` entry with that key" using a probe whose value field is `0`)
behaves as specified only for a value-blind comparison, and the code's own
comments in `load_editr` state that entries for the same cell pair compare
equivalent under the sort. -/
def nncLt {V : Type} (a b : NNCdata V) : Prop :=
  a.cell1 < b.cell1 ∨ (a.cell1 = b.cell1 ∧ a.cell2 < b.cell2)

instance {V : Type} : DecidableRel (nncLt (V := V)) := fun a b => by
  unfold nncLt; exact inferInstance

/-- Non-strict version of `nncLt`; `List.insertionSort nncLe` models the
C++ sorts (which are driven by the strict `operator<`). -/
def nncLe {V : Type} (a b : NNCdata V) : Prop := ¬ nncLt b a

instance {V : Type} : DecidableRel (nncLe (V := V)) := fun a b => by
  unfold nncLe; exact inferInstance

/-- Key equality of two entries, as used by the merge loop's comparisons
(`cell1 == ... && cell2 == ...`) and the `equality` lambda of `load_editr`. -/
def sameKey {V : Type} (a b : NNCdata V) : Prop :=
  a.cell1 = b.cell1 ∧ a.cell2 = b.cell2

instance {V : Type} : ∀ a b : NNCdata V, Decidable (sameKey a b) := fun a b => by
  unfold sameKey; exact inferInstance

/-- Boolean predicate selecting the entries whose key is `(c1, c2)`. -/
def hasKey {V : Type} (c1 c2 : Nat) (x : NNCdata V) : Bool :=
  decide (x.cell1 = c1 ∧ x.cell2 = c2)

/-- Index returned by `std::lower_bound` over a key-sorted list: the length of
the maximal prefix of elements comparing below the target. -/
def lower_bound {V : Type} (l : List (NNCdata V)) (target : NNCdata V) : Nat :=
  (l.takeWhile fun x => decide (nncLt x target)).length

/-- One multiplication `current_input->trans *= current_edit.trans` of the
merge loop, applied to entry `x`. -/
def scaleEntry {V : Type} [Mul V] (edit x : NNCdata V) : NNCdata V :=
  ⟨x.cell1, x.cell2, x.trans * edit.trans⟩

/-- Effect of the `while` loop of `NNC::load_edit` (NNC.cpp lines 167-175)
when the cursor stands at index `i` of `base`: every consecutive entry from
`i` on sharing the edit's key gets its value multiplied by the edit's value,
and the cursor advances past that run. -/
def applyRun {V : Type} [Mul V] (base : List (NNCdata V)) (i : Nat) (edit : NNCdata V) :
    List (NNCdata V) × Nat :=
  let run := (base.drop i).takeWhile fun x => decide (sameKey x edit)
  (base.take i ++ run.map (scaleEntry edit) ++
      (base.drop i).dropWhile (fun x => decide (sameKey x edit)),
    i + run.length)

/-- Embedding of `NNC::add_edit` (NNC.cpp lines 288-298): if the overlay's
last entry has the same key, multiply it in place, otherwise append. -/
def NNC.add_edit {V : Type} [Mul V] (m_edit : List (NNCdata V)) (edit_node : NNCdata V) :
    List (NNCdata V) :=
  match m_edit.getLast? with
  | some back =>
    if sameKey back edit_node then
      m_edit.dropLast ++ [⟨back.cell1, back.cell2, back.trans * edit_node.trans⟩]
    else m_edit ++ [edit_node]
  | none => [edit_node]

/-- One iteration of the merge loop of `NNC::load_edit` (NNC.cpp lines
150-179) on the state `(m_input, cursor, m_edit)`: if the cursor is at the
end, internalize the edit; otherwise, if the cursor's key does not match,
re-seek via `lower_bound` with the probe `NNCdata(cell1, cell2, 0)` (and
internalize if that lands at the end); finally, if the (possibly re-sought)
cursor's key matches, scale the whole run, else internalize. -/
def edit_step {V : Type} [Mul V] [Zero V]
    (st : List (NNCdata V) × Nat × List (NNCdata V)) (current_edit : NNCdata V) :
    List (NNCdata V) × Nat × List (NNCdata V) :=
  match st.1[st.2.1]? with
  | none => (st.1, st.2.1, NNC.add_edit st.2.2 current_edit)
  | some cur =>
    if sameKey cur current_edit then
      let r := applyRun st.1 st.2.1 current_edit
      (r.1, r.2, st.2.2)
    else
      let i := lower_bound st.1 ⟨current_edit.cell1, current_edit.cell2, 0⟩
      match st.1[i]? with
      | none => (st.1, i, NNC.add_edit st.2.2 current_edit)
      | some cur2 =>
        if sameKey cur2 current_edit then
          let r := applyRun st.1 i current_edit
          (r.1, r.2, st.2.2)
        else (st.1, i, NNC.add_edit st.2.2 current_edit)

/-- The whole merge phase of `NNC::load_edit`: fold the loop over the sorted
edit entries, starting with the cursor at the beginning and an empty overlay.
Returns the updated `m_input` and the built `m_edit`. -/
def load_edit_merge {V : Type} [Mul V] [Zero V]
    (m_input : List (NNCdata V)) (nnc_edit : List (NNCdata V)) :
    List (NNCdata V) × List (NNCdata V) :=
  let r := nnc_edit.foldl edit_step (m_input, 0, [])
  (r.1, r.2.2)

/-- Per-record processing of `NNC::load_input` (NNC.cpp lines 103-111):
resolve the pair, skip on failure, otherwise keep `(g1, g2, value)`. -/
def nnc_record {V : Type} (grid : Grid) (record : DeckRecord V) : Option (NNCdata V) :=
  match make_index_pair grid record with
  | none => none
  | some p => some ⟨p.1, p.2, record.value⟩

/-- Per-record processing of `NNC::load_edit` (NNC.cpp lines 124-137): skip an
identity multiplier, skip an unresolvable pair, skip a neighboring pair. -/
def edit_record {V : Type} [One V] [DecidableEq V] (grid : Grid) (record : DeckRecord V) :
    Option (NNCdata V) :=
  if record.value = 1 then none
  else
    match make_index_pair grid record with
    | none => none
    | some p => if is_neighbor grid p.1 p.2 then none else some ⟨p.1, p.2, record.value⟩

/-- Per-record processing of `NNC::load_editr` (NNC.cpp lines 202-212): skip
an unresolvable pair, skip a neighboring pair (no identity filter here). -/
def editr_record {V : Type} (grid : Grid) (record : DeckRecord V) : Option (NNCdata V) :=
  match make_index_pair grid record with
  | none => none
  | some p => if is_neighbor grid p.1 p.2 then none else some ⟨p.1, p.2, record.value⟩

/-- Surviving entries of a keyword group, in declaration order: each keyword's
records in order, keywords in order, records that fail the per-record filter
skipped. -/
def keyword_entries {V : Type} (f : DeckRecord V → Option (NNCdata V))
    (kws : List (DeckKeyword V)) : List (NNCdata V) :=
  kws.flatMap fun kw => kw.records.filterMap f

/-- Provenance marker: the first keyword's location, if any keyword occurred
(each loader sets its member once, at the first keyword it sees). -/
def first_location {V : Type} (kws : List (DeckKeyword V)) : Option Nat :=
  kws.head?.map DeckKeyword.location

/-- Result of `NNC::load_input` (NNC.cpp lines 101-118) on the `m_input`
member: collect the surviving entries and sort (`std::sort` with the
value-blind `operator<`; `std::sort` is unstable, so the order of entries
sharing a key is unspecified in C++ — the model fixes the stable order; no
claim depends on the order within a key group). -/
def NNC.load_input {V : Type} (grid : Grid) (kws : List (DeckKeyword V)) :
    List (NNCdata V) :=
  List.insertionSort nncLe (keyword_entries (nnc_record grid) kws)

/-- The sorted surviving `EDITNNC` entries (`nnc_edit` after the `std::sort`
in NNC.cpp line 144). -/
def NNC.nnc_edit_sorted {V : Type} [One V] [DecidableEq V] (grid : Grid)
    (kws : List (DeckKeyword V)) : List (NNCdata V) :=
  List.insertionSort nncLe (keyword_entries (edit_record grid) kws)

/-- Inner loop of `std::unique` with the `equality` lambda of
`NNC::load_editr`: `kept` is the last element written to the output; each
subsequent element key-equal to it is dropped, and the first differing
element becomes the new last-kept element. -/
def dedup_after {V : Type} (kept : NNCdata V) : List (NNCdata V) → List (NNCdata V)
  | [] => []
  | y :: ys => if sameKey kept y then dedup_after kept ys else y :: dedup_after y ys

/-- Embedding of `std::unique` with the `equality` lambda of `NNC::load_editr`
(key equality): keep the first element of every maximal consecutive group of
key-equal entries. -/
def dedup_consecutive {V : Type} : List (NNCdata V) → List (NNCdata V)
  | [] => []
  | x :: xs => x :: dedup_after x xs

/-- Inner loop of `std::set_difference` while the first-range cursor stands on
`a` (with `rest` behind it): second-range elements below `a` are skipped;
`recur` continues the algorithm once the first-range cursor advances (it is
`set_difference rest`).  This nesting encodes the two-cursor loop with
structural recursion. -/
def sd_inner {V : Type} (a : NNCdata V) (rest : List (NNCdata V))
    (recur : List (NNCdata V) → List (NNCdata V)) : List (NNCdata V) → List (NNCdata V)
  | [] => a :: rest
  | b :: bs =>
    if nncLt a b then a :: recur (b :: bs)
    else if nncLt b a then sd_inner a rest recur bs
    else recur bs

/-- Embedding of `std::set_difference` (NNC.cpp lines 242-244): the standard
two-cursor algorithm, copying the elements of the first list that have no
equivalent (here: key-equal) element in the second. -/
def set_difference {V : Type} : List (NNCdata V) → List (NNCdata V) → List (NNCdata V)
  | [], _ => []
  | a :: as, bs => sd_inner a as (set_difference as) bs

/-- List part of `NNC::load_editr` (NNC.cpp lines 182-254): the surviving
records are pushed to the front of a deque (so the working list is the reverse
of declaration order), stable-sorted, deduplicated keeping the first entry of
each key group, and the resulting overlay's keys are purged from `m_edit` by
`set_difference`.  When nothing survives the function returns early and
changes neither list. -/
def NNC.load_editr_lists {V : Type} (grid : Grid) (m_edit : List (NNCdata V))
    (kws : List (DeckKeyword V)) : List (NNCdata V) × List (NNCdata V) :=
  let nnc_editr := (keyword_entries (editr_record grid) kws).reverse
  if nnc_editr.isEmpty then (m_edit, [])
  else
    let deduped := dedup_consecutive (List.insertionSort nncLe nnc_editr)
    (set_difference m_edit deduped, deduped)

/-- The canonical state built by the constructor: three entry sequences plus
three provenance markers. -/
structure NNCstate (V : Type) where
  m_input : List (NNCdata V)
  m_edit : List (NNCdata V)
  m_editr : List (NNCdata V)
  m_nnc_location : Option Nat
  m_edit_location : Option Nat
  m_editr_location : Option Nat
deriving DecidableEq

/-- Embedding of the constructor `NNC::NNC(grid, deck)` (NNC.cpp lines
94-98): `load_input`, then `load_edit`, then `load_editr`.  Each loader also
records the location of the first keyword of its category, if any. -/
def NNC.construct {V : Type} [Mul V] [Zero V] [One V] [DecidableEq V]
    (grid : Grid) (deck : Deck V) : NNCstate V :=
  let input0 := NNC.load_input grid deck.nnc
  let merged := load_edit_merge input0 (NNC.nnc_edit_sorted grid deck.editnnc)
  let editr := NNC.load_editr_lists grid merged.2 deck.editnncr
  { m_input := merged.1
    m_edit := editr.1
    m_editr := editr.2
    m_nnc_location := first_location deck.nnc
    m_edit_location := first_location deck.editnnc
    m_editr_location := first_location deck.editnncr }

/-- Embedding of `NNC::addNNC` (NNC.cpp lines 268-276): canonicalize the pair
by a recursive swap, then insert at the `std::lower_bound` position of
`m_input`.  Always returns `true`. -/
def NNC.addNNC {V : Type} (st : NNCstate V) (cell1 cell2 : Nat) (trans : V) :
    NNCstate V × Bool :=
  if h : cell2 < cell1 then NNC.addNNC st cell2 cell1 trans
  else
    ({ st with m_input :=
        st.m_input.take (lower_bound st.m_input ⟨cell1, cell2, trans⟩) ++
          ⟨cell1, cell2, trans⟩ ::
            st.m_input.drop (lower_bound st.m_input ⟨cell1, cell2, trans⟩) },
      true)
termination_by if cell2 < cell1 then 1 else 0
decreasing_by
  have h2 : ¬ cell1 < cell2 := Nat.not_lt.mpr (Nat.le_of_lt h)
  simp [h, h2]

/-! ### Basic facts about the order and key predicates -/

/-- The key of an entry, as a pair. -/
def keyOf {V : Type} (x : NNCdata V) : Nat × Nat := (x.cell1, x.cell2)

theorem nncLe_total {V : Type} : ∀ a b : NNCdata V, nncLe a b ∨ nncLe b a := by
  intro a b
  unfold nncLe nncLt
  omega

theorem nncLe_trans {V : Type} :
    ∀ a b c : NNCdata V, nncLe a b → nncLe b c → nncLe a c := by
  intro a b c
  unfold nncLe nncLt
  omega

instance {V : Type} : IsTotal (NNCdata V) nncLe := ⟨nncLe_total⟩

instance {V : Type} : IsTrans (NNCdata V) nncLe := ⟨nncLe_trans⟩

theorem nncLt_of_le_of_ne {V : Type} (a b : NNCdata V) (h1 : nncLe a b)
    (h2 : ¬ sameKey a b) : nncLt a b := by
  unfold nncLe nncLt at *
  unfold sameKey at h2
  omega

theorem sameKey_of_le_of_le {V : Type} (a b : NNCdata V) (h1 : nncLe a b)
    (h2 : nncLe b a) : sameKey a b := by
  unfold nncLe nncLt at *
  unfold sameKey
  omega

/-! ### `addNNC`: canonical form, C9 and C10 -/

theorem addNNC_eq {V : Type} (st : NNCstate V) (cell1 cell2 : Nat) (trans : V)
    (h : ¬ cell2 < cell1) :
    NNC.addNNC st cell1 cell2 trans =
      ({ st with m_input :=
          st.m_input.take (lower_bound st.m_input ⟨cell1, cell2, trans⟩) ++
            ⟨cell1, cell2, trans⟩ ::
              st.m_input.drop (lower_bound st.m_input ⟨cell1, cell2, trans⟩) },
        true) := by
  unfold NNC.addNNC
  rw [dif_neg h]

theorem addNNC_eq_swap {V : Type} (st : NNCstate V) (cell1 cell2 : Nat) (trans : V)
    (h : cell2 < cell1) :
    NNC.addNNC st cell1 cell2 trans = NNC.addNNC st cell2 cell1 trans := by
  conv_lhs => unfold NNC.addNNC
  rw [dif_pos h]

/-- C9: `addNNC(a, b, v)` and `addNNC(b, a, v)` applied to the same state
produce identical results (the pair is canonicalized with the smaller cell
first), and `addNNC` always succeeds, returning `true`. -/
theorem C9_addNNC_commutes {V : Type} (st : NNCstate V) (a b : Nat) (v : V) :
    NNC.addNNC st a b v = NNC.addNNC st b a v ∧ (NNC.addNNC st a b v).2 = true := by
  have hsym : NNC.addNNC st a b v = NNC.addNNC st b a v := by
    rcases Nat.lt_trichotomy a b with h | h | h
    · exact (addNNC_eq_swap st b a v h).symm
    · rw [h]
    · exact addNNC_eq_swap st a b v h
  refine ⟨hsym, ?_⟩
  rcases Nat.lt_or_ge b a with h | h
  · rw [addNNC_eq_swap st a b v h, addNNC_eq st b a v (Nat.not_lt.mpr (Nat.le_of_lt h))]
  · rw [addNNC_eq st a b v (Nat.not_lt.mpr h)]

/-- C10: `addNNC` only changes the `connections` sequence `m_input`: the two
overlays and the three provenance markers are exactly the same before and
after the call. -/
theorem C10_addNNC_frame {V : Type} (st : NNCstate V) (a b : Nat) (v : V) :
    (NNC.addNNC st a b v).1.m_edit = st.m_edit ∧
    (NNC.addNNC st a b v).1.m_editr = st.m_editr ∧
    (NNC.addNNC st a b v).1.m_nnc_location = st.m_nnc_location ∧
    (NNC.addNNC st a b v).1.m_edit_location = st.m_edit_location ∧
    (NNC.addNNC st a b v).1.m_editr_location = st.m_editr_location := by
  rcases Nat.lt_or_ge b a with h | h
  · rw [addNNC_eq_swap st a b v h, addNNC_eq st b a v (Nat.not_lt.mpr (Nat.le_of_lt h))]
    exact ⟨rfl, rfl, rfl, rfl, rfl⟩
  · rw [addNNC_eq st a b v (Nat.not_lt.mpr h)]
    exact ⟨rfl, rfl, rfl, rfl, rfl⟩

/-! ### Concrete test fixtures (value type `Int`) -/

/-- A 5 by 5 by 1 grid with every cell active and the usual flattened
addressing. -/
def testGrid5 : Grid := ⟨5, 5, 1, fun _ _ _ => true, fun i j k => i + 5 * j + 25 * k⟩

/-- A record joining cells (1,1,1) and (4,1,1) of `testGrid5`: global indices
0 and 3, difference 3, hence not a neighbor pair. -/
def recA (v : Int) : DeckRecord Int := ⟨1, 1, 1, 4, 1, 1, v⟩

/-- A record joining cells (1,1,1) and (5,1,1) of `testGrid5`: global indices
0 and 4, difference 4, hence not a neighbor pair. -/
def recB (v : Int) : DeckRecord Int := ⟨1, 1, 1, 5, 1, 1, v⟩

/-- The empty state (all members default-constructed). -/
def emptyState : NNCstate Int := ⟨[], [], [], none, none, none⟩

/-- Deck exhibiting the `load_edit` end-of-list slip: one base connection for
the pair (0,3) and two surviving edits for the same pair. -/
def bugDeck : Deck Int := ⟨[⟨[recA 5], 10⟩], [⟨[recA 2, recA 3], 20⟩], []⟩

/-- C2, evaluation at the failing input: after the first edit scales the base
run that ends `connections`, the cursor rests at the end of the list, and the
second edit for the very same pair is internalized into `m_edit` instead of
being applied in place — so the key (0,3) ends up both in `connections` and
in `multiplicativeOverlay`, contradicting the claim (and the code's own
comment that a matching edit is applied to the corresponding connection). -/
theorem C2_code_bug_eval :
    (NNC.construct testGrid5 bugDeck).m_input = [⟨0, 3, 10⟩] ∧
    (NNC.construct testGrid5 bugDeck).m_edit = [⟨0, 3, 3⟩] := by
  constructor <;> decide

/-- C3, counterexample: self-pairs are stored.  `addNNC` called with
`cell1 = cell2 = 0` inserts the key (0,0) into `connections`, and a base
record naming the cell (1,1,1) on both sides resolves to the key (0,0) and is
stored as well; neither key satisfies `first < second`. -/
theorem C3_counterexample :
    (NNC.addNNC emptyState 0 0 1).1.m_input = [⟨0, 0, 1⟩] ∧
    (NNC.construct testGrid5 ⟨[⟨[⟨1, 1, 1, 1, 1, 1, 5⟩], 1⟩], [], []⟩).m_input =
      [⟨0, 0, 5⟩] ∧
    ¬ (0 : Nat) < 0 := by
  refine ⟨?_, by decide, by omega⟩
  rw [addNNC_eq emptyState 0 0 1 (by omega)]
  decide

/-! ### C6: the index resolver -/

/-- Validity of one 1-based coordinate for an axis of extent `extent`, in the
spec's terms: after conversion to 0-based it lies in `[0, extent)`. -/
def coord_ok (extent : Nat) (c : Int) : Prop := 0 ≤ c - 1 ∧ c - 1 < (extent : Int)

/-- Resolvability of one triple of a record, in the spec's terms: all three
0-based coordinates in bounds and the addressed cell active. -/
def triple_ok {V : Type} (grid : Grid) (r : DeckRecord V) (off : Nat) : Prop :=
  coord_ok grid.nx (r.item (0 + off)) ∧ coord_ok grid.ny (r.item (1 + off)) ∧
    coord_ok grid.nz (r.item (2 + off)) ∧
    grid.active (sizeT (r.item (0 + off) - 1)) (sizeT (r.item (1 + off) - 1))
      (sizeT (r.item (2 + off) - 1)) = true

theorem sizeT_ge_iff (extent : Nat) (c : Int) (hext : extent ≤ 2 ^ 32)
    (hlo : -(2 ^ 31 : Int) ≤ c) (hhi : c ≤ 2 ^ 31) :
    extent ≤ sizeT (c - 1) ↔ ¬ coord_ok extent c := by
  unfold sizeT coord_ok
  omega

theorem global_index_eq_none_iff {V : Type} (grid : Grid) (r : DeckRecord V) (off : Nat)
    (hnx : grid.nx ≤ 2 ^ 32) (hny : grid.ny ≤ 2 ^ 32) (hnz : grid.nz ≤ 2 ^ 32)
    (hc : ∀ t : Fin 6, -(2 ^ 31 : Int) ≤ r.item t.val ∧ r.item t.val ≤ 2 ^ 31)
    (hoff : off = 0 ∨ off = 3) :
    (global_index grid r off = none ↔ ¬ triple_ok grid r off) := by
  have hi : -(2 ^ 31 : Int) ≤ r.item (0 + off) ∧ r.item (0 + off) ≤ 2 ^ 31 := by
    rcases hoff with h | h <;> subst h
    · exact hc ⟨0, by omega⟩
    · exact hc ⟨3, by omega⟩
  have hj : -(2 ^ 31 : Int) ≤ r.item (1 + off) ∧ r.item (1 + off) ≤ 2 ^ 31 := by
    rcases hoff with h | h <;> subst h
    · exact hc ⟨1, by omega⟩
    · exact hc ⟨4, by omega⟩
  have hk : -(2 ^ 31 : Int) ≤ r.item (2 + off) ∧ r.item (2 + off) ≤ 2 ^ 31 := by
    rcases hoff with h | h <;> subst h
    · exact hc ⟨2, by omega⟩
    · exact hc ⟨5, by omega⟩
  have e1 := sizeT_ge_iff grid.nx (r.item (0 + off)) hnx hi.1 hi.2
  have e2 := sizeT_ge_iff grid.ny (r.item (1 + off)) hny hj.1 hj.2
  have e3 := sizeT_ge_iff grid.nz (r.item (2 + off)) hnz hk.1 hk.2
  simp only [global_index, triple_ok]
  split_ifs with h1 h2 h3 h4
  · simp only [true_iff]
    intro hT
    exact (e1.mp h1) hT.1
  · simp only [true_iff]
    intro hT
    exact (e2.mp h2) hT.2.1
  · simp only [true_iff]
    intro hT
    exact (e3.mp h3) hT.2.2.1
  · simp only [true_iff]
    intro hT
    rw [hT.2.2.2] at h4
    simp at h4
  · simp only [reduceCtorEq, false_iff, not_not]
    refine ⟨?_, ?_, ?_, ?_⟩
    · by_contra hq
      exact h1 (e1.mpr hq)
    · by_contra hq
      exact h2 (e2.mpr hq)
    · by_contra hq
      exact h3 (e3.mpr hq)
    · cases hb : grid.active (sizeT (r.item (0 + off) - 1)) (sizeT (r.item (1 + off) - 1))
        (sizeT (r.item (2 + off) - 1))
      · exact absurd hb h4
      · rfl

theorem make_index_pair_none_split {V : Type} (grid : Grid) (r : DeckRecord V) :
    make_index_pair grid r = none ↔
      global_index grid r 0 = none ∨ global_index grid r 3 = none := by
  unfold make_index_pair
  cases h1 : global_index grid r 0 <;> cases h2 : global_index grid r 3 <;> simp
  split <;> simp

theorem make_index_pair_some_shape {V : Type} (grid : Grid) (r : DeckRecord V)
    (p : Nat × Nat) (h : make_index_pair grid r = some p) :
    p.1 ≤ p.2 ∧ ∃ a b, global_index grid r 0 = some a ∧ global_index grid r 3 = some b ∧
      p = (min a b, max a b) := by
  unfold make_index_pair at h
  cases h1 : global_index grid r 0 with
  | none =>
    rw [h1] at h
    exact absurd h (by simp)
  | some a =>
    cases h2 : global_index grid r 3 with
    | none =>
      rw [h1, h2] at h
      exact absurd h (by simp)
    | some b =>
      rw [h1, h2] at h
      dsimp only at h
      by_cases hab : a < b
      · rw [if_pos hab] at h
        cases h
        refine ⟨Nat.le_of_lt hab, a, b, rfl, rfl, ?_⟩
        simp only [Prod.mk.injEq]
        omega
      · rw [if_neg hab] at h
        cases h
        refine ⟨by omega, a, b, rfl, rfl, ?_⟩
        simp only [Prod.mk.injEq]
        omega

theorem record_filters_none {V : Type} [One V] [DecidableEq V] (grid : Grid)
    (r : DeckRecord V) (h : make_index_pair grid r = none) :
    nnc_record grid r = none ∧ edit_record grid r = none ∧ editr_record grid r = none := by
  refine ⟨?_, ?_, ?_⟩
  · unfold nnc_record
    rw [h]
  · unfold edit_record
    split
    · rfl
    · rw [h]
  · unfold editr_record
    rw [h]

theorem keyword_entries_skip {V : Type} (f : DeckRecord V → Option (NNCdata V))
    (r : DeckRecord V) (hf : f r = none) (kws1 kws2 : List (DeckKeyword V))
    (recs1 recs2 : List (DeckRecord V)) (loc : Nat) :
    keyword_entries f (kws1 ++ ⟨recs1 ++ r :: recs2, loc⟩ :: kws2) =
      keyword_entries f (kws1 ++ ⟨recs1 ++ recs2, loc⟩ :: kws2) := by
  unfold keyword_entries
  simp [List.flatMap_append, List.filterMap_append, hf]

theorem first_location_congr {V : Type} (kws1 kws2 : List (DeckKeyword V))
    (A B : List (DeckRecord V)) (loc : Nat) :
    first_location (kws1 ++ ⟨A, loc⟩ :: kws2) = first_location (kws1 ++ ⟨B, loc⟩ :: kws2) := by
  cases kws1 <;> simp [first_location]

theorem construct_skip_nnc {V : Type} [Mul V] [Zero V] [One V] [DecidableEq V]
    (grid : Grid) (r : DeckRecord V) (h : nnc_record grid r = none)
    (kws1 kws2 ed er : List (DeckKeyword V)) (recs1 recs2 : List (DeckRecord V)) (loc : Nat) :
    NNC.construct grid ⟨kws1 ++ ⟨recs1 ++ r :: recs2, loc⟩ :: kws2, ed, er⟩ =
      NNC.construct grid ⟨kws1 ++ ⟨recs1 ++ recs2, loc⟩ :: kws2, ed, er⟩ := by
  simp only [NNC.construct, NNC.load_input]
  rw [keyword_entries_skip _ r h, first_location_congr]

theorem construct_skip_edit {V : Type} [Mul V] [Zero V] [One V] [DecidableEq V]
    (grid : Grid) (r : DeckRecord V) (h : edit_record grid r = none)
    (kws1 kws2 ed er : List (DeckKeyword V)) (recs1 recs2 : List (DeckRecord V)) (loc : Nat) :
    NNC.construct grid ⟨ed, kws1 ++ ⟨recs1 ++ r :: recs2, loc⟩ :: kws2, er⟩ =
      NNC.construct grid ⟨ed, kws1 ++ ⟨recs1 ++ recs2, loc⟩ :: kws2, er⟩ := by
  simp only [NNC.construct, NNC.nnc_edit_sorted]
  rw [keyword_entries_skip _ r h, first_location_congr]

theorem construct_skip_editr {V : Type} [Mul V] [Zero V] [One V] [DecidableEq V]
    (grid : Grid) (r : DeckRecord V) (h : editr_record grid r = none)
    (kws1 kws2 ed er : List (DeckKeyword V)) (recs1 recs2 : List (DeckRecord V)) (loc : Nat) :
    NNC.construct grid ⟨ed, er, kws1 ++ ⟨recs1 ++ r :: recs2, loc⟩ :: kws2⟩ =
      NNC.construct grid ⟨ed, er, kws1 ++ ⟨recs1 ++ recs2, loc⟩ :: kws2⟩ := by
  simp only [NNC.construct, NNC.load_editr_lists]
  rw [keyword_entries_skip _ r h, first_location_congr]

/-- C6: the index resolver, given a record with two 1-based coordinate
triples, the grid extents and the active-cell predicate, returns unresolved
if and only if some coordinate of either triple is outside `[0, extent)` for
its axis after conversion to 0-based, or an addressed cell is inactive (under
the realistic bounds `extent ≤ 2^32` and coordinates in the C++ `int` range);
when both triples resolve it returns the pair ordered with the smaller global
index first and the larger second; and a record that does not resolve is
skipped with no state change, wherever it sits in whichever keyword of any of
the three categories (no exception is modelled: failure is the `none`
value). -/
theorem C6_index_resolver {V : Type} [Mul V] [Zero V] [One V] [DecidableEq V]
    (grid : Grid) (r : DeckRecord V)
    (hnx : grid.nx ≤ 2 ^ 32) (hny : grid.ny ≤ 2 ^ 32) (hnz : grid.nz ≤ 2 ^ 32)
    (hc : ∀ t : Fin 6, -(2 ^ 31 : Int) ≤ r.item t.val ∧ r.item t.val ≤ 2 ^ 31) :
    (make_index_pair grid r = none ↔ ¬ triple_ok grid r 0 ∨ ¬ triple_ok grid r 3) ∧
    (∀ p, make_index_pair grid r = some p →
      p.1 ≤ p.2 ∧ ∃ a b, global_index grid r 0 = some a ∧ global_index grid r 3 = some b ∧
        p = (min a b, max a b)) ∧
    (make_index_pair grid r = none →
      ∀ kws1 kws2 ed er recs1 recs2 loc,
        NNC.construct grid ⟨kws1 ++ ⟨recs1 ++ r :: recs2, loc⟩ :: kws2, ed, er⟩ =
            NNC.construct grid ⟨kws1 ++ ⟨recs1 ++ recs2, loc⟩ :: kws2, ed, er⟩ ∧
          NNC.construct grid ⟨ed, kws1 ++ ⟨recs1 ++ r :: recs2, loc⟩ :: kws2, er⟩ =
            NNC.construct grid ⟨ed, kws1 ++ ⟨recs1 ++ recs2, loc⟩ :: kws2, er⟩ ∧
          NNC.construct grid ⟨ed, er, kws1 ++ ⟨recs1 ++ r :: recs2, loc⟩ :: kws2⟩ =
            NNC.construct grid ⟨ed, er, kws1 ++ ⟨recs1 ++ recs2, loc⟩ :: kws2⟩) := by
  refine ⟨?_, ?_, ?_⟩
  · rw [make_index_pair_none_split]
    rw [global_index_eq_none_iff grid r 0 hnx hny hnz hc (Or.inl rfl)]
    rw [global_index_eq_none_iff grid r 3 hnx hny hnz hc (Or.inr rfl)]
  · intro p hp
    exact make_index_pair_some_shape grid r p hp
  · intro hnone kws1 kws2 ed er recs1 recs2 loc
    obtain ⟨h1, h2, h3⟩ := record_filters_none grid r hnone
    exact ⟨construct_skip_nnc grid r h1 kws1 kws2 ed er recs1 recs2 loc,
      construct_skip_edit grid r h2 kws1 kws2 ed er recs1 recs2 loc,
      construct_skip_editr grid r h3 kws1 kws2 ed er recs1 recs2 loc⟩

/-- A record whose first triple has an out-of-range I coordinate (0). -/
def badRec : DeckRecord Int := ⟨0, 1, 1, 4, 1, 1, 5⟩

/-- Witness for C6 at a concrete grid and record: the record naming the
1-based coordinate 0 does not resolve, and the characterization applies. -/
theorem C6_index_resolver_witness :
    make_index_pair testGrid5 badRec = none ↔
      ¬ triple_ok testGrid5 badRec 0 ∨ ¬ triple_ok testGrid5 badRec 3 :=
  (C6_index_resolver testGrid5 badRec (by decide) (by decide) (by decide)
    (by decide)).1

/-! ### C7: adjacency filter and overlays -/

theorem is_neighbor_self (grid : Grid) (g : Nat) : is_neighbor grid g g = true := by
  simp [is_neighbor, sizeT]

theorem is_neighbor_iff (grid : Grid) (g1 g2 : Nat) (hle : g1 ≤ g2)
    (hlt : g2 - g1 < 2 ^ 64) :
    (is_neighbor grid g1 g2 = true ↔
      g2 - g1 = 0 ∨ g2 - g1 = 1 ∨ g2 - g1 = grid.nx ∨ g2 - g1 = grid.ny) := by
  simp only [is_neighbor, sizeT]
  split_ifs with h1 h2 h3 h4 <;> simp <;> omega

theorem nnc_record_cells {V : Type} (grid : Grid) (r : DeckRecord V) (x : NNCdata V)
    (h : nnc_record grid r = some x) : x.cell1 ≤ x.cell2 := by
  unfold nnc_record at h
  cases hm : make_index_pair grid r with
  | none =>
    rw [hm] at h
    exact absurd h (by simp)
  | some p =>
    rw [hm] at h
    cases h
    exact (make_index_pair_some_shape grid r p hm).1

theorem editr_record_props {V : Type} (grid : Grid) (r : DeckRecord V) (x : NNCdata V)
    (h : editr_record grid r = some x) :
    is_neighbor grid x.cell1 x.cell2 = false ∧ x.cell1 < x.cell2 := by
  unfold editr_record at h
  cases hm : make_index_pair grid r with
  | none =>
    rw [hm] at h
    exact absurd h (by simp)
  | some p =>
    rw [hm] at h
    dsimp only at h
    by_cases hn : is_neighbor grid p.1 p.2 = true
    · rw [if_pos hn] at h
      exact absurd h (by simp)
    · rw [if_neg hn] at h
      cases h
      have hle : p.1 ≤ p.2 := (make_index_pair_some_shape grid r p hm).1
      have hne : p.1 ≠ p.2 := by
        intro hq
        rw [hq] at hn
        exact hn (is_neighbor_self grid p.2)
      refine ⟨Bool.eq_false_iff.mpr hn, ?_⟩
      show p.1 < p.2
      omega

theorem edit_record_props {V : Type} [One V] [DecidableEq V] (grid : Grid)
    (r : DeckRecord V) (x : NNCdata V) (h : edit_record grid r = some x) :
    is_neighbor grid x.cell1 x.cell2 = false ∧ x.cell1 < x.cell2 ∧ x.trans ≠ 1 := by
  unfold edit_record at h
  by_cases hv : r.value = 1
  · rw [if_pos hv] at h
    exact absurd h (by simp)
  · rw [if_neg hv] at h
    have he : editr_record grid r = some x := by
      unfold editr_record
      exact h
    obtain ⟨h1, h2⟩ := editr_record_props grid r x he
    refine ⟨h1, h2, ?_⟩
    unfold editr_record at he
    cases hm : make_index_pair grid r with
    | none =>
      rw [hm] at he
      exact absurd he (by simp)
    | some p =>
      rw [hm] at he
      dsimp only at he
      by_cases hn : is_neighbor grid p.1 p.2 = true
      · rw [if_pos hn] at he
        exact absurd he (by simp)
      · rw [if_neg hn] at he
        cases he
        exact hv

theorem mem_keyword_entries {V : Type} (f : DeckRecord V → Option (NNCdata V))
    (kws : List (DeckKeyword V)) (x : NNCdata V) (h : x ∈ keyword_entries f kws) :
    ∃ r, f r = some x := by
  unfold keyword_entries at h
  rw [List.mem_flatMap] at h
  obtain ⟨kw, _, hx⟩ := h
  rw [List.mem_filterMap] at hx
  obtain ⟨r, _, hr⟩ := hx
  exact ⟨r, hr⟩

theorem add_edit_key_pred {V : Type} [Mul V] (P : Nat → Nat → Prop)
    (m : List (NNCdata V)) (e : NNCdata V)
    (hm : ∀ y ∈ m, P y.cell1 y.cell2) (he : P e.cell1 e.cell2) :
    ∀ y ∈ NNC.add_edit m e, P y.cell1 y.cell2 := by
  unfold NNC.add_edit
  cases hlast : m.getLast? with
  | none =>
    intro y hy
    rw [List.mem_singleton] at hy
    rw [hy]
    exact he
  | some back =>
    dsimp only
    by_cases hk : sameKey back e
    · rw [if_pos hk]
      intro y hy
      rw [List.mem_append] at hy
      rcases hy with hy | hy
      · exact hm y ((List.dropLast_sublist m).mem hy)
      · rw [List.mem_singleton] at hy
        rw [hy]
        exact hm back (List.mem_of_mem_getLast? hlast)
    · rw [if_neg hk]
      intro y hy
      rw [List.mem_append] at hy
      rcases hy with hy | hy
      · exact hm y hy
      · rw [List.mem_singleton] at hy
        rw [hy]
        exact he

theorem edit_step_medit {V : Type} [Mul V] [Zero V]
    (st : List (NNCdata V) × Nat × List (NNCdata V)) (e : NNCdata V) :
    (edit_step st e).2.2 = st.2.2 ∨ (edit_step st e).2.2 = NNC.add_edit st.2.2 e := by
  simp only [edit_step]
  split
  · right; rfl
  · split
    · left; rfl
    · split
      · right; rfl
      · split
        · left; rfl
        · right; rfl

theorem merge_medit_pred {V : Type} [Mul V] [Zero V] (P : Nat → Nat → Prop) :
    ∀ (edits : List (NNCdata V)) (st : List (NNCdata V) × Nat × List (NNCdata V)),
      (∀ e ∈ edits, P e.cell1 e.cell2) → (∀ y ∈ st.2.2, P y.cell1 y.cell2) →
      ∀ y ∈ (edits.foldl edit_step st).2.2, P y.cell1 y.cell2 := by
  intro edits
  induction edits with
  | nil =>
    intro st _ hst
    exact hst
  | cons e es ih =>
    intro st hE hst
    rw [List.foldl_cons]
    refine ih (edit_step st e) (fun x hx => hE x (List.mem_cons_of_mem e hx)) ?_
    rcases edit_step_medit st e with hc | hc
    · rw [hc]
      exact hst
    · rw [hc]
      exact add_edit_key_pred P st.2.2 e hst (hE e (List.mem_cons_self e es))

theorem mem_set_difference {V : Type} :
    ∀ (A B : List (NNCdata V)) (x : NNCdata V), x ∈ set_difference A B → x ∈ A := by
  intro A
  induction A with
  | nil =>
    intro B x hx
    exact absurd hx (by simp [set_difference])
  | cons a as ih =>
    intro B
    induction B with
    | nil =>
      intro x hx
      rw [set_difference, sd_inner] at hx
      exact hx
    | cons b bs ihB =>
      intro x hx
      rw [set_difference] at hx
      rw [sd_inner] at hx
      by_cases h1 : nncLt a b
      · rw [if_pos h1] at hx
        rcases List.mem_cons.mp hx with hx | hx
        · rw [hx]
          exact List.mem_cons_self a as
        · exact List.mem_cons_of_mem a (ih (b :: bs) x hx)
      · rw [if_neg h1] at hx
        by_cases h2 : nncLt b a
        · rw [if_pos h2] at hx
          refine ihB x ?_
          rw [set_difference]
          exact hx
        · rw [if_neg h2] at hx
          exact List.mem_cons_of_mem a (ih bs x hx)

theorem dedup_after_sublist {V : Type} :
    ∀ (l : List (NNCdata V)) (x : NNCdata V), List.Sublist (dedup_after x l) l := by
  intro l
  induction l with
  | nil =>
    intro x
    rw [dedup_after]
  | cons y ys ih =>
    intro x
    rw [dedup_after]
    by_cases h : sameKey x y
    · rw [if_pos h]
      exact (ih x).trans (List.sublist_cons_self y ys)
    · rw [if_neg h]
      exact List.Sublist.cons₂ y (ih y)

theorem dedup_sublist {V : Type} :
    ∀ l : List (NNCdata V), List.Sublist (dedup_consecutive l) l := by
  intro l
  cases l with
  | nil =>
    rw [dedup_consecutive]
  | cons x xs =>
    rw [dedup_consecutive]
    exact List.Sublist.cons₂ x (dedup_after_sublist xs x)

/-! ### Keys of the merge result -/

/-- Order on keys; `nncLe` is this order on `keyOf`. -/
def keyLe (p q : Nat × Nat) : Prop := ¬ (q.1 < p.1 ∨ (q.1 = p.1 ∧ q.2 < p.2))

theorem sorted_iff_keys {V : Type} (l : List (NNCdata V)) :
    List.Sorted nncLe l ↔ List.Pairwise keyLe (l.map keyOf) := by
  rw [List.Sorted, List.pairwise_map]
  rfl

theorem sorted_of_keys_eq {V : Type} (l1 l2 : List (NNCdata V))
    (h : l1.map keyOf = l2.map keyOf) (h2 : List.Sorted nncLe l2) :
    List.Sorted nncLe l1 := by
  rw [sorted_iff_keys, h, ← sorted_iff_keys]
  exact h2

theorem applyRun_keys {V : Type} [Mul V] (base : List (NNCdata V)) (i : Nat)
    (e : NNCdata V) : ((applyRun base i e).1).map keyOf = base.map keyOf := by
  unfold applyRun
  dsimp only
  conv_rhs => rw [← List.take_append_drop i base]
  conv_rhs =>
    rw [show base.drop i =
        ((base.drop i).takeWhile fun x => decide (sameKey x e)) ++
          ((base.drop i).dropWhile fun x => decide (sameKey x e)) from
      (List.takeWhile_append_dropWhile _ _).symm]
  have hmid : ((base.drop i).takeWhile fun x => decide (sameKey x e)).map
      (keyOf ∘ scaleEntry e) =
      ((base.drop i).takeWhile fun x => decide (sameKey x e)).map keyOf :=
    List.map_congr_left fun x _ => rfl
  rw [List.map_append, List.map_append, List.map_map, hmid, ← List.map_append,
    ← List.map_append, List.append_assoc, List.takeWhile_append_dropWhile,
    List.take_append_drop]

theorem edit_step_base {V : Type} [Mul V] [Zero V]
    (st : List (NNCdata V) × Nat × List (NNCdata V)) (e : NNCdata V) :
    (edit_step st e).1 = st.1 ∨ ∃ i, (edit_step st e).1 = (applyRun st.1 i e).1 := by
  simp only [edit_step]
  split
  · left; rfl
  · split
    · right; exact ⟨st.2.1, rfl⟩
    · split
      · left; rfl
      · split
        · right
          exact ⟨lower_bound st.1 ⟨e.cell1, e.cell2, 0⟩, rfl⟩
        · left; rfl

theorem edit_step_keys {V : Type} [Mul V] [Zero V]
    (st : List (NNCdata V) × Nat × List (NNCdata V)) (e : NNCdata V) :
    ((edit_step st e).1).map keyOf = st.1.map keyOf := by
  rcases edit_step_base st e with h | ⟨i, h⟩
  · rw [h]
  · rw [h, applyRun_keys]

theorem merge_base_keys {V : Type} [Mul V] [Zero V] :
    ∀ (edits : List (NNCdata V)) (st : List (NNCdata V) × Nat × List (NNCdata V)),
      ((edits.foldl edit_step st).1).map keyOf = st.1.map keyOf := by
  intro edits
  induction edits with
  | nil =>
    intro st
    rfl
  | cons e es ih =>
    intro st
    rw [List.foldl_cons, ih (edit_step st e), edit_step_keys]

theorem keys_pred_transfer {V : Type} (P : Nat → Nat → Prop) (l1 l2 : List (NNCdata V))
    (h : l1.map keyOf = l2.map keyOf) (hP : ∀ y ∈ l2, P y.cell1 y.cell2) :
    ∀ y ∈ l1, P y.cell1 y.cell2 := by
  intro y hy
  have : keyOf y ∈ l2.map keyOf := by
    rw [← h]
    exact List.mem_map_of_mem keyOf hy
  rw [List.mem_map] at this
  obtain ⟨z, hz, hzy⟩ := this
  have h1 : z.cell1 = y.cell1 := congrArg Prod.fst hzy
  have h2 : z.cell2 = y.cell2 := congrArg Prod.snd hzy
  rw [← h1, ← h2]
  exact hP z hz

/-! ### Membership in the three sequences of a constructed state -/

theorem mem_load_editr_fst {V : Type} (grid : Grid) (m_edit : List (NNCdata V))
    (kws : List (DeckKeyword V)) (x : NNCdata V)
    (h : x ∈ (NNC.load_editr_lists grid m_edit kws).1) : x ∈ m_edit := by
  unfold NNC.load_editr_lists at h
  dsimp only at h
  split at h
  · exact h
  · exact mem_set_difference _ _ x h

theorem mem_load_editr_snd {V : Type} (grid : Grid) (m_edit : List (NNCdata V))
    (kws : List (DeckKeyword V)) (x : NNCdata V)
    (h : x ∈ (NNC.load_editr_lists grid m_edit kws).2) :
    x ∈ keyword_entries (editr_record grid) kws := by
  unfold NNC.load_editr_lists at h
  dsimp only at h
  split at h
  · exact absurd h (by simp)
  · have h1 : x ∈ List.insertionSort nncLe (keyword_entries (editr_record grid) kws).reverse :=
      (dedup_sublist _).mem h
    have h2 : x ∈ (keyword_entries (editr_record grid) kws).reverse :=
      (List.perm_insertionSort nncLe _).mem_iff.mp h1
    exact List.mem_reverse.mp h2

theorem construct_medit_entry {V : Type} [Mul V] [Zero V] [One V] [DecidableEq V]
    (grid : Grid) (deck : Deck V) (e : NNCdata V)
    (h : e ∈ (NNC.construct grid deck).m_edit) :
    is_neighbor grid e.cell1 e.cell2 = false ∧ e.cell1 < e.cell2 := by
  have h1 : e ∈ (load_edit_merge (NNC.load_input grid deck.nnc)
      (NNC.nnc_edit_sorted grid deck.editnnc)).2 :=
    mem_load_editr_fst grid _ deck.editnncr e h
  unfold load_edit_merge at h1
  refine merge_medit_pred
    (fun c1 c2 => is_neighbor grid c1 c2 = false ∧ c1 < c2) _ _ ?_ (by simp) e h1
  intro x hx
  have hx2 : x ∈ keyword_entries (edit_record grid) deck.editnnc :=
    (List.perm_insertionSort nncLe _).mem_iff.mp hx
  obtain ⟨r, hr⟩ := mem_keyword_entries _ _ x hx2
  obtain ⟨p1, p2, _⟩ := edit_record_props grid r x hr
  exact ⟨p1, p2⟩

theorem construct_meditr_entry {V : Type} [Mul V] [Zero V] [One V] [DecidableEq V]
    (grid : Grid) (deck : Deck V) (e : NNCdata V)
    (h : e ∈ (NNC.construct grid deck).m_editr) :
    is_neighbor grid e.cell1 e.cell2 = false ∧ e.cell1 < e.cell2 := by
  have h1 : e ∈ keyword_entries (editr_record grid) deck.editnncr :=
    mem_load_editr_snd grid _ deck.editnncr e h
  obtain ⟨r, hr⟩ := mem_keyword_entries _ _ e h1
  exact editr_record_props grid r e hr

theorem construct_minput_entry {V : Type} [Mul V] [Zero V] [One V] [DecidableEq V]
    (grid : Grid) (deck : Deck V) (e : NNCdata V)
    (h : e ∈ (NNC.construct grid deck).m_input) : e.cell1 ≤ e.cell2 := by
  have hkeys : ((NNC.construct grid deck).m_input).map keyOf =
      (NNC.load_input grid deck.nnc).map keyOf := by
    unfold NNC.construct load_edit_merge
    exact merge_base_keys _ _
  refine keys_pred_transfer (fun c1 c2 => c1 ≤ c2) _ _ hkeys ?_ e h
  intro y hy
  have hy2 : y ∈ keyword_entries (nnc_record grid) deck.nnc :=
    (List.perm_insertionSort nncLe _).mem_iff.mp hy
  obtain ⟨r, hr⟩ := mem_keyword_entries _ _ y hy2
  exact nnc_record_cells grid r y hr

/-- C7: pairs classified adjacent are never present in `multiplicativeOverlay`
or `replacementOverlay` after construction, even if edit or replacement
records declare them; and the adjacency classifier returns `true` exactly for
the canonicalized global-index differences `0`, `1`, X-extent and Y-extent. -/
theorem C7_adjacent_never_overlaid {V : Type} [Mul V] [Zero V] [One V] [DecidableEq V]
    (grid : Grid) (deck : Deck V) :
    (∀ e, e ∈ (NNC.construct grid deck).m_edit ∨ e ∈ (NNC.construct grid deck).m_editr →
      is_neighbor grid e.cell1 e.cell2 = false) ∧
    (∀ g1 g2, g1 ≤ g2 → g2 - g1 < 2 ^ 64 →
      (is_neighbor grid g1 g2 = true ↔
        g2 - g1 = 0 ∨ g2 - g1 = 1 ∨ g2 - g1 = grid.nx ∨ g2 - g1 = grid.ny)) := by
  refine ⟨?_, fun g1 g2 hle hlt => is_neighbor_iff grid g1 g2 hle hlt⟩
  intro e he
  rcases he with he | he
  · exact (construct_medit_entry grid deck e he).1
  · exact (construct_meditr_entry grid deck e he).1

/-- Deck whose construction leaves one entry in each overlay. -/
def overlayDeck : Deck Int := ⟨[], [⟨[recA 2], 1⟩], [⟨[recB 7], 2⟩]⟩

/-- Witness for C7: on the concrete state both overlay entries are
non-adjacent, and the classifier characterization holds at the difference 4
on the 5 by 5 grid. -/
theorem C7_adjacent_never_overlaid_witness :
    is_neighbor testGrid5 (0 : Nat) 3 = false ∧
      (is_neighbor testGrid5 (0 : Nat) 4 = true ↔
        (4 : Nat) - 0 = 0 ∨ 4 - 0 = 1 ∨ 4 - 0 = testGrid5.nx ∨ 4 - 0 = testGrid5.ny) := by
  constructor
  · have hm : (⟨0, 3, 2⟩ : NNCdata Int) ∈ (NNC.construct testGrid5 overlayDeck).m_edit := by
      rw [show (NNC.construct testGrid5 overlayDeck).m_edit = [⟨0, 3, 2⟩] from by decide]
      exact List.mem_singleton.mpr rfl
    exact (C7_adjacent_never_overlaid testGrid5 overlayDeck).1 ⟨0, 3, 2⟩ (Or.inl hm)
  · exact (C7_adjacent_never_overlaid testGrid5 overlayDeck).2 0 4 (by omega) (by omega)

/-! ### C8: sortedness of `connections`; C3 amended -/

theorem take_length_takeWhile {V : Type} (l : List (NNCdata V)) (q : NNCdata V → Bool) :
    l.take ((l.takeWhile q).length) = l.takeWhile q := by
  induction l with
  | nil => rfl
  | cons x xs ih =>
    rw [List.takeWhile_cons]
    by_cases h : q x = true
    · rw [if_pos h, List.length_cons, List.take_succ_cons, ih]
    · rw [if_neg h]
      rfl

theorem insert_eq_orderedInsert {V : Type} (l : List (NNCdata V)) (e : NNCdata V) :
    l.take (lower_bound l e) ++ e :: l.drop (lower_bound l e) =
      List.orderedInsert nncLe e l := by
  rw [List.orderedInsert_eq_take_drop]
  have hpq : (fun b : NNCdata V => decide (¬ nncLe e b)) =
      (fun b : NNCdata V => decide (nncLt b e)) := by
    funext b
    simp [nncLe]
  unfold lower_bound
  rw [hpq]
  have hsplit : (l.takeWhile fun b : NNCdata V => decide (nncLt b e)) ++
      (l.dropWhile fun b : NNCdata V => decide (nncLt b e)) = l :=
    List.takeWhile_append_dropWhile _ _
  have h1 : l.take ((l.takeWhile fun b : NNCdata V => decide (nncLt b e)).length) =
      l.takeWhile fun b : NNCdata V => decide (nncLt b e) :=
    take_length_takeWhile l _
  have h2 : l.drop ((l.takeWhile fun b : NNCdata V => decide (nncLt b e)).length) =
      l.dropWhile fun b : NNCdata V => decide (nncLt b e) := by
    have hc := congrArg
      (List.drop ((l.takeWhile fun b : NNCdata V => decide (nncLt b e)).length)) hsplit
    rw [List.drop_left] at hc
    exact hc.symm
  rw [h1, h2]

theorem sorted_insert_lower_bound {V : Type} (l : List (NNCdata V)) (e : NNCdata V)
    (h : List.Sorted nncLe l) :
    List.Sorted nncLe (l.take (lower_bound l e) ++ e :: l.drop (lower_bound l e)) := by
  rw [insert_eq_orderedInsert]
  exact h.orderedInsert e l

/-- C8: for every constructed state, `connections` is non-decreasing by key
(the value-blind comparison order), and every subsequent insert via `addNNC`
preserves this sorted order by placing the new entry at its binary-search
position. -/
theorem C8_connections_sorted {V : Type} [Mul V] [Zero V] [One V] [DecidableEq V] :
    (∀ (grid : Grid) (deck : Deck V),
      List.Sorted nncLe (NNC.construct grid deck).m_input) ∧
    (∀ (st : NNCstate V) (c1 c2 : Nat) (v : V), List.Sorted nncLe st.m_input →
      List.Sorted nncLe ((NNC.addNNC st c1 c2 v).1.m_input)) := by
  constructor
  · intro grid deck
    have hkeys : ((NNC.construct grid deck).m_input).map keyOf =
        (NNC.load_input grid deck.nnc).map keyOf := by
      unfold NNC.construct load_edit_merge
      exact merge_base_keys _ _
    exact sorted_of_keys_eq _ _ hkeys (List.sorted_insertionSort nncLe _)
  · intro st c1 c2 v h
    rcases Nat.lt_or_ge c2 c1 with hc | hc
    · rw [addNNC_eq_swap st c1 c2 v hc,
        addNNC_eq st c2 c1 v (Nat.not_lt.mpr (Nat.le_of_lt hc))]
      exact sorted_insert_lower_bound st.m_input ⟨c2, c1, v⟩ h
    · rw [addNNC_eq st c1 c2 v (Nat.not_lt.mpr hc)]
      exact sorted_insert_lower_bound st.m_input ⟨c1, c2, v⟩ h

/-- A state with one connection, sorted. -/
def oneEntryState : NNCstate Int := ⟨[⟨1, 2, 5⟩], [], [], none, none, none⟩

/-- Witness for C8: the construction part at a concrete deck, and the insert
part at a concrete sorted state. -/
theorem C8_connections_sorted_witness :
    List.Sorted nncLe (NNC.construct testGrid5 bugDeck).m_input ∧
    List.Sorted nncLe ((NNC.addNNC oneEntryState 4 3 7).1.m_input) :=
  ⟨(C8_connections_sorted (V := Int)).1 testGrid5 bugDeck,
    (C8_connections_sorted (V := Int)).2 oneEntryState 4 3 7 (by decide)⟩

/-- C3, amended: every key stored in `multiplicativeOverlay` or
`replacementOverlay` satisfies `first < second` strictly; every key stored in
`connections` satisfies `first ≤ second`, and `addNNC` preserves that bound —
but self-pairs can be stored in `connections` (see the counterexample), so
strict inequality fails there. -/
theorem C3_keys_canonical {V : Type} [Mul V] [Zero V] [One V] [DecidableEq V]
    (grid : Grid) (deck : Deck V) :
    (∀ e ∈ (NNC.construct grid deck).m_input, e.cell1 ≤ e.cell2) ∧
    (∀ e ∈ (NNC.construct grid deck).m_edit, e.cell1 < e.cell2) ∧
    (∀ e ∈ (NNC.construct grid deck).m_editr, e.cell1 < e.cell2) ∧
    (∀ (st : NNCstate V) (c1 c2 : Nat) (v : V),
      (∀ e ∈ st.m_input, e.cell1 ≤ e.cell2) →
      ∀ e ∈ (NNC.addNNC st c1 c2 v).1.m_input, e.cell1 ≤ e.cell2) := by
  refine ⟨fun e he => construct_minput_entry grid deck e he,
    fun e he => (construct_medit_entry grid deck e he).2,
    fun e he => (construct_meditr_entry grid deck e he).2, ?_⟩
  intro st c1 c2 v hst
  have main : ∀ (d1 d2 : Nat), ¬ d2 < d1 →
      ∀ e ∈ (NNC.addNNC st d1 d2 v).1.m_input, e.cell1 ≤ e.cell2 := by
    intro d1 d2 hd e he
    rw [addNNC_eq st d1 d2 v hd] at he
    dsimp only at he
    rw [List.mem_append] at he
    rcases he with he | he
    · exact hst e ((List.take_sublist _ _).mem he)
    · rcases List.mem_cons.mp he with he | he
      · rw [he]
        show d1 ≤ d2
        omega
      · exact hst e ((List.drop_sublist _ _).mem he)
  rcases Nat.lt_or_ge c2 c1 with hc | hc
  · rw [addNNC_eq_swap st c1 c2 v hc]
    exact main c2 c1 (Nat.not_lt.mpr (Nat.le_of_lt hc))
  · exact main c1 c2 (Nat.not_lt.mpr hc)

/-- Witness for C3's amended claim: concrete overlay entries have strictly
increasing keys, and a concrete insert keeps `first ≤ second`. -/
theorem C3_keys_canonical_witness :
    ((0 : Nat) < 3 ∧ (0 : Nat) < 4) ∧ (3 : Nat) ≤ 4 := by
  have hm1 : (⟨0, 3, 2⟩ : NNCdata Int) ∈ (NNC.construct testGrid5 overlayDeck).m_edit := by
    rw [show (NNC.construct testGrid5 overlayDeck).m_edit = [⟨0, 3, 2⟩] from by decide]
    exact List.mem_singleton.mpr rfl
  have hm2 : (⟨0, 4, 7⟩ : NNCdata Int) ∈ (NNC.construct testGrid5 overlayDeck).m_editr := by
    rw [show (NNC.construct testGrid5 overlayDeck).m_editr = [⟨0, 4, 7⟩] from by decide]
    exact List.mem_singleton.mpr rfl
  have hm3 : (⟨3, 4, 7⟩ : NNCdata Int) ∈ (NNC.addNNC oneEntryState 4 3 7).1.m_input := by
    rw [addNNC_eq_swap oneEntryState 4 3 7 (by omega),
      addNNC_eq oneEntryState 3 4 7 (by omega)]
    decide
  exact ⟨⟨(C3_keys_canonical testGrid5 overlayDeck).2.1 ⟨0, 3, 2⟩ hm1,
      (C3_keys_canonical testGrid5 overlayDeck).2.2.1 ⟨0, 4, 7⟩ hm2⟩,
    (C3_keys_canonical testGrid5 overlayDeck).2.2.2 oneEntryState 4 3 7
      (by decide) ⟨3, 4, 7⟩ hm3⟩

/-! ### C1: the purge leaves no replacement key in the multiplicative overlay -/

theorem nncLt_trans {V : Type} (a b c : NNCdata V) (h1 : nncLt a b) (h2 : nncLt b c) :
    nncLt a c := by
  unfold nncLt at *
  omega

theorem nncLt_trans_le {V : Type} (a b c : NNCdata V) (h1 : nncLt a b) (h2 : nncLe b c) :
    nncLt a c := by
  unfold nncLe nncLt at *
  omega

theorem nncLt_not_sameKey {V : Type} (a b : NNCdata V) (h : nncLt a b) : ¬ sameKey a b := by
  unfold nncLt at h
  unfold sameKey
  omega

theorem sameKey_symm {V : Type} (a b : NNCdata V) (h : sameKey a b) : sameKey b a := by
  unfold sameKey at *
  omega

theorem sameKey_lt_compat {V : Type} (a b x : NNCdata V) (h1 : sameKey a b)
    (h2 : nncLt a x) : nncLt b x := by
  unfold sameKey at h1
  unfold nncLt at *
  omega

/-- Strict order on keys. -/
def keyLtP (p q : Nat × Nat) : Prop := p.1 < q.1 ∨ (p.1 = q.1 ∧ p.2 < q.2)

theorem pairwise_lt_iff_keys {V : Type} (l : List (NNCdata V)) :
    List.Pairwise nncLt l ↔ List.Pairwise keyLtP (l.map keyOf) := by
  rw [List.pairwise_map]
  rfl

theorem pairwise_lt_of_keys_eq {V : Type} (l1 l2 : List (NNCdata V))
    (h : l1.map keyOf = l2.map keyOf) (h2 : List.Pairwise nncLt l2) :
    List.Pairwise nncLt l1 := by
  rw [pairwise_lt_iff_keys, h, ← pairwise_lt_iff_keys]
  exact h2

theorem add_edit_strict {V : Type} [Mul V] (m : List (NNCdata V)) (e : NNCdata V)
    (hm : List.Pairwise nncLt m) (hbound : ∀ y ∈ m, nncLe y e) :
    List.Pairwise nncLt (NNC.add_edit m e) := by
  unfold NNC.add_edit
  cases hlast : m.getLast? with
  | none =>
    exact List.pairwise_singleton nncLt e
  | some back =>
    obtain ⟨m0, rfl⟩ := List.getLast?_eq_some_iff.mp hlast
    dsimp only
    by_cases hk : sameKey back e
    · rw [if_pos hk, List.dropLast_concat]
      refine pairwise_lt_of_keys_eq _ (m0 ++ [back]) ?_ hm
      simp [keyOf]
    · rw [if_neg hk]
      rw [List.pairwise_append]
      refine ⟨hm, List.pairwise_singleton nncLt e, ?_⟩
      intro y hy e' he'
      rw [List.mem_singleton] at he'
      rw [he']
      have hback : nncLe back e := hbound back (by simp)
      rcases List.mem_append.mp hy with hy0 | hyb
      · have h1 : nncLt y back :=
          (List.pairwise_append.mp hm).2.2 y hy0 back (by simp)
        exact nncLt_trans_le y back e h1 hback
      · rw [List.mem_singleton] at hyb
        subst hyb
        exact nncLt_of_le_of_ne y e hback hk

theorem merge_medit_strict {V : Type} [Mul V] [Zero V] :
    ∀ (es : List (NNCdata V)) (st : List (NNCdata V) × Nat × List (NNCdata V)),
      List.Sorted nncLe es →
      List.Pairwise nncLt st.2.2 →
      (∀ y ∈ st.2.2, ∀ e ∈ es, nncLe y e) →
      List.Pairwise nncLt (es.foldl edit_step st).2.2 := by
  intro es
  induction es with
  | nil =>
    intro st _ hst _
    exact hst
  | cons e es' ih =>
    intro st hsort hst hbound
    rw [List.foldl_cons]
    have hsort' : List.Sorted nncLe es' := (List.sorted_cons.mp hsort).2
    have hhead : ∀ e' ∈ es', nncLe e e' := (List.sorted_cons.mp hsort).1
    have hstep := edit_step_medit st e
    refine ih (edit_step st e) hsort' ?_ ?_
    · rcases hstep with hc | hc
      · rw [hc]
        exact hst
      · rw [hc]
        exact add_edit_strict st.2.2 e hst
          (fun y hy => hbound y hy e (List.mem_cons_self e es'))
    · rcases hstep with hc | hc
      · rw [hc]
        intro y hy e' he'
        exact hbound y hy e' (List.mem_cons_of_mem e he')
      · rw [hc]
        intro y hy
        refine add_edit_key_pred
          (fun c1 c2 => ∀ e' ∈ es',
            ¬ (e'.cell1 < c1 ∨ (e'.cell1 = c1 ∧ e'.cell2 < c2))) st.2.2 e ?_ ?_ y hy
        · intro z hz e' he'
          exact hbound z hz e' (List.mem_cons_of_mem e he')
        · intro e' he'
          exact hhead e' he'

theorem dedup_after_strict {V : Type} :
    ∀ (l : List (NNCdata V)) (x : NNCdata V), List.Sorted nncLe (x :: l) →
      List.Pairwise nncLt (x :: dedup_after x l) := by
  intro l
  induction l with
  | nil =>
    intro x _
    rw [dedup_after]
    exact List.pairwise_singleton nncLt x
  | cons y ys ih =>
    intro x hsort
    have hxy : nncLe x y := (List.sorted_cons.mp hsort).1 y (List.mem_cons_self y ys)
    have hsort2 : List.Sorted nncLe (y :: ys) := (List.sorted_cons.mp hsort).2
    rw [dedup_after]
    by_cases hk : sameKey x y
    · rw [if_pos hk]
      refine ih x ?_
      rw [List.sorted_cons]
      refine ⟨?_, (List.sorted_cons.mp hsort2).2⟩
      intro b hb
      exact (List.sorted_cons.mp hsort).1 b (List.mem_cons_of_mem y hb)
    · rw [if_neg hk]
      have hxylt : nncLt x y := nncLt_of_le_of_ne x y hxy hk
      have hrest := ih y hsort2
      rw [List.pairwise_cons]
      refine ⟨?_, hrest⟩
      intro z hz
      rcases List.mem_cons.mp hz with hz | hz
      · rw [hz]
        exact hxylt
      · have hzys : z ∈ ys := (dedup_after_sublist ys y).mem hz
        have hyz : nncLe y z := (List.sorted_cons.mp hsort2).1 z hzys
        exact nncLt_trans_le x y z hxylt hyz

theorem dedup_strict {V : Type} (l : List (NNCdata V)) (h : List.Sorted nncLe l) :
    List.Pairwise nncLt (dedup_consecutive l) := by
  cases l with
  | nil =>
    rw [dedup_consecutive]
    exact List.Pairwise.nil
  | cons x xs =>
    rw [dedup_consecutive]
    exact dedup_after_strict xs x h

theorem set_difference_disjoint {V : Type} :
    ∀ A : List (NNCdata V), List.Pairwise nncLt A →
      ∀ B : List (NNCdata V), List.Pairwise nncLt B →
      ∀ x ∈ set_difference A B, ∀ b ∈ B, ¬ sameKey x b := by
  intro A
  induction A with
  | nil =>
    intro _ B _ x hx
    exact absurd hx (by simp [set_difference])
  | cons a as ihA =>
    intro hA B
    induction B with
    | nil =>
      intro _ x _ b hb
      exact absurd hb (List.not_mem_nil b)
    | cons b bs ihB =>
      intro hB x hx b' hb'
      rw [set_difference, sd_inner] at hx
      have hAs : List.Pairwise nncLt as := List.Pairwise.of_cons hA
      have hBs : List.Pairwise nncLt bs := List.Pairwise.of_cons hB
      by_cases h1 : nncLt a b
      · rw [if_pos h1] at hx
        rcases List.mem_cons.mp hx with hx | hx
        · subst hx
          rcases List.mem_cons.mp hb' with hb' | hb'
          · subst hb'
            exact nncLt_not_sameKey x b' h1
          · have hbb : nncLt b b' := (List.pairwise_cons.mp hB).1 b' hb'
            exact nncLt_not_sameKey x b' (nncLt_trans x b b' h1 hbb)
        · exact ihA hAs (b :: bs) hB x hx b' hb'
      · rw [if_neg h1] at hx
        by_cases h2 : nncLt b a
        · rw [if_pos h2] at hx
          have hx2 : x ∈ set_difference (a :: as) bs := by
            rw [set_difference]
            exact hx
          rcases List.mem_cons.mp hb' with hb' | hb'
          · subst hb'
            have hxA : x ∈ a :: as := mem_set_difference (a :: as) bs x hx2
            rcases List.mem_cons.mp hxA with hxa | hxas
            · subst hxa
              intro hq
              exact nncLt_not_sameKey b' x h2 (sameKey_symm x b' hq)
            · have hax : nncLt a x := (List.pairwise_cons.mp hA).1 x hxas
              intro hq
              exact nncLt_not_sameKey b' x (nncLt_trans b' a x h2 hax) (sameKey_symm x b' hq)
          · exact ihB hBs x hx2 b' hb'
        · rw [if_neg h2] at hx
          have hab : sameKey a b := sameKey_of_le_of_le a b h2 h1
          rcases List.mem_cons.mp hb' with hb' | hb'
          · subst hb'
            have hxas : x ∈ as := mem_set_difference as bs x hx
            have hax : nncLt a x := (List.pairwise_cons.mp hA).1 x hxas
            intro hq
            exact nncLt_not_sameKey b' x (sameKey_lt_compat a b' x hab hax)
              (sameKey_symm x b' hq)
          · exact ihA hAs bs hBs x hx b' hb'

/-- C1: after construction, no key of `replacementOverlay` remains in
`multiplicativeOverlay`: the purge is a set-difference by key alone over the
two (strictly key-sorted) sequences, so it removes every multiplicative entry
whose key also appears in the replacement overlay, regardless of the numeric
values carried by the two entries. -/
theorem C1_replacement_purges_multiplier {V : Type} [Mul V] [Zero V] [One V] [DecidableEq V]
    (grid : Grid) (deck : Deck V) :
    ∀ a ∈ (NNC.construct grid deck).m_edit, ∀ b ∈ (NNC.construct grid deck).m_editr,
      ¬ sameKey a b := by
  intro a ha b hb
  have hedit : (NNC.construct grid deck).m_edit =
      (NNC.load_editr_lists grid
        ((load_edit_merge (NNC.load_input grid deck.nnc)
          (NNC.nnc_edit_sorted grid deck.editnnc)).2) deck.editnncr).1 := rfl
  have heditr : (NNC.construct grid deck).m_editr =
      (NNC.load_editr_lists grid
        ((load_edit_merge (NNC.load_input grid deck.nnc)
          (NNC.nnc_edit_sorted grid deck.editnnc)).2) deck.editnncr).2 := rfl
  rw [hedit] at ha
  rw [heditr] at hb
  unfold NNC.load_editr_lists at ha hb
  dsimp only at ha hb
  by_cases hE : ((keyword_entries (editr_record grid) deck.editnncr).reverse).isEmpty = true
  · rw [if_pos hE] at hb
    exact absurd hb (List.not_mem_nil b)
  · rw [if_neg hE] at ha hb
    have hstrictA : List.Pairwise nncLt
        ((load_edit_merge (NNC.load_input grid deck.nnc)
          (NNC.nnc_edit_sorted grid deck.editnnc)).2) := by
      unfold load_edit_merge
      refine merge_medit_strict _ _ (List.sorted_insertionSort nncLe _) List.Pairwise.nil ?_
      intro y hy
      exact absurd hy (List.not_mem_nil y)
    have hstrictB : List.Pairwise nncLt
        (dedup_consecutive (List.insertionSort nncLe
          ((keyword_entries (editr_record grid) deck.editnncr).reverse))) :=
      dedup_strict _ (List.sorted_insertionSort nncLe _)
    exact set_difference_disjoint _ hstrictA _ hstrictB a ha b hb

/-- Witness for C1: on the concrete deck both overlays are nonempty and the
surviving multiplicative key differs from the replacement key. -/
theorem C1_replacement_purges_multiplier_witness :
    ¬ sameKey (⟨0, 3, 2⟩ : NNCdata Int) ⟨0, 4, 7⟩ := by
  have hm1 : (⟨0, 3, 2⟩ : NNCdata Int) ∈ (NNC.construct testGrid5 overlayDeck).m_edit := by
    rw [show (NNC.construct testGrid5 overlayDeck).m_edit = [⟨0, 3, 2⟩] from by decide]
    exact List.mem_singleton.mpr rfl
  have hm2 : (⟨0, 4, 7⟩ : NNCdata Int) ∈ (NNC.construct testGrid5 overlayDeck).m_editr := by
    rw [show (NNC.construct testGrid5 overlayDeck).m_editr = [⟨0, 4, 7⟩] from by decide]
    exact List.mem_singleton.mpr rfl
  exact C1_replacement_purges_multiplier testGrid5 overlayDeck ⟨0, 3, 2⟩ hm1 ⟨0, 4, 7⟩ hm2

/-! ### C4: last replacement wins -/

theorem hasKey_iff {V : Type} (k1 k2 : Nat) (x : NNCdata V) :
    hasKey k1 k2 x = true ↔ (x.cell1 = k1 ∧ x.cell2 = k2) := by
  simp [hasKey]

theorem hasKey_false_iff {V : Type} (k1 k2 : Nat) (x : NNCdata V) :
    hasKey k1 k2 x = false ↔ ¬ (x.cell1 = k1 ∧ x.cell2 = k2) := by
  simp [hasKey]

theorem not_hasKey_of_lt {V : Type} (k1 k2 : Nat) (x z : NNCdata V)
    (hx : hasKey k1 k2 x = true) (hlt : nncLt x z) : hasKey k1 k2 z = false := by
  rw [hasKey_iff] at hx
  rw [hasKey_false_iff]
  unfold nncLt at hlt
  omega

theorem not_hasKey_of_lt_target {V : Type} (k1 k2 : Nat) (a b : NNCdata V)
    (ha : hasKey k1 k2 a = true) (hlt : nncLt b a) : hasKey k1 k2 b = false := by
  rw [hasKey_iff] at ha
  rw [hasKey_false_iff]
  unfold nncLt at hlt
  omega

theorem not_hasKey_sameKey {V : Type} (k1 k2 : Nat) (x y : NNCdata V)
    (hk : sameKey x y) (hx : hasKey k1 k2 x = false) : hasKey k1 k2 y = false := by
  unfold sameKey at hk
  rw [hasKey_false_iff] at *
  omega

theorem filter_orderedInsert_key {V : Type} (k1 k2 : Nat) (a : NNCdata V)
    (ha : hasKey k1 k2 a = true) :
    ∀ l : List (NNCdata V),
      (List.orderedInsert nncLe a l).filter (hasKey k1 k2) =
        a :: l.filter (hasKey k1 k2) := by
  intro l
  induction l with
  | nil =>
    rw [List.orderedInsert]
    simp [ha]
  | cons b l ih =>
    rw [List.orderedInsert]
    by_cases h : nncLe a b
    · rw [if_pos h]
      simp [List.filter_cons, ha]
    · rw [if_neg h]
      have hblt : nncLt b a := by
        unfold nncLe at h
        exact not_not.mp h
      have hb : hasKey k1 k2 b = false := not_hasKey_of_lt_target k1 k2 a b ha hblt
      rw [List.filter_cons, List.filter_cons]
      rw [hb]
      simp only [Bool.false_eq_true, if_false]
      exact ih

theorem filter_orderedInsert_not_key {V : Type} (k1 k2 : Nat) (a : NNCdata V)
    (ha : hasKey k1 k2 a = false) :
    ∀ l : List (NNCdata V),
      (List.orderedInsert nncLe a l).filter (hasKey k1 k2) =
        l.filter (hasKey k1 k2) := by
  intro l
  induction l with
  | nil =>
    rw [List.orderedInsert]
    simp [ha]
  | cons b l ih =>
    rw [List.orderedInsert]
    by_cases h : nncLe a b
    · rw [if_pos h]
      rw [List.filter_cons, ha]
      simp only [Bool.false_eq_true, if_false]
    · rw [if_neg h]
      rw [List.filter_cons, List.filter_cons]
      by_cases hb : hasKey k1 k2 b = true
      · rw [hb]
        simp only [if_true]
        rw [ih]
      · rw [Bool.eq_false_iff.mpr hb]
        simp only [Bool.false_eq_true, if_false]
        exact ih

theorem filter_insertionSort {V : Type} (k1 k2 : Nat) :
    ∀ l : List (NNCdata V),
      (List.insertionSort nncLe l).filter (hasKey k1 k2) = l.filter (hasKey k1 k2) := by
  intro l
  induction l with
  | nil => rfl
  | cons a l ih =>
    rw [List.insertionSort]
    by_cases ha : hasKey k1 k2 a = true
    · rw [filter_orderedInsert_key k1 k2 a ha, ih, List.filter_cons, ha]
      simp only [if_true]
    · rw [filter_orderedInsert_not_key k1 k2 a (Bool.eq_false_iff.mpr ha), ih,
        List.filter_cons, Bool.eq_false_iff.mpr ha]
      simp only [Bool.false_eq_true, if_false]

theorem dedup_after_gt {V : Type} :
    ∀ (l : List (NNCdata V)) (x : NNCdata V), List.Sorted nncLe (x :: l) →
      ∀ z ∈ dedup_after x l, nncLt x z := by
  intro l
  induction l with
  | nil =>
    intro x _ z hz
    exact absurd hz (by rw [dedup_after]; exact List.not_mem_nil z)
  | cons y ys ih =>
    intro x hsort z hz
    have hxy : nncLe x y := (List.sorted_cons.mp hsort).1 y (List.mem_cons_self y ys)
    have hsort2 : List.Sorted nncLe (y :: ys) := (List.sorted_cons.mp hsort).2
    rw [dedup_after] at hz
    by_cases hk : sameKey x y
    · rw [if_pos hk] at hz
      refine ih x ?_ z hz
      rw [List.sorted_cons]
      exact ⟨fun b hb => (List.sorted_cons.mp hsort).1 b (List.mem_cons_of_mem y hb),
        (List.sorted_cons.mp hsort2).2⟩
    · rw [if_neg hk] at hz
      have hxylt : nncLt x y := nncLt_of_le_of_ne x y hxy hk
      rcases List.mem_cons.mp hz with hz | hz
      · rw [hz]
        exact hxylt
      · exact nncLt_trans x y z hxylt (ih y hsort2 z hz)

theorem dedup_after_filter_of_key {V : Type} (k1 k2 : Nat) (l : List (NNCdata V))
    (x : NNCdata V) (hsort : List.Sorted nncLe (x :: l)) (hx : hasKey k1 k2 x = true) :
    (dedup_after x l).filter (hasKey k1 k2) = [] := by
  rw [List.filter_eq_nil_iff]
  intro z hz
  rw [Bool.not_eq_true]
  exact not_hasKey_of_lt k1 k2 x z hx (dedup_after_gt l x hsort z hz)

theorem dedup_after_filter_not_key {V : Type} (k1 k2 : Nat) :
    ∀ (l : List (NNCdata V)) (x : NNCdata V), List.Sorted nncLe (x :: l) →
      hasKey k1 k2 x = false →
      (dedup_after x l).filter (hasKey k1 k2) = (l.filter (hasKey k1 k2)).take 1 := by
  intro l
  induction l with
  | nil =>
    intro x _ _
    rw [dedup_after]
    rfl
  | cons y ys ih =>
    intro x hsort hx
    have hxy : nncLe x y := (List.sorted_cons.mp hsort).1 y (List.mem_cons_self y ys)
    have hsort2 : List.Sorted nncLe (y :: ys) := (List.sorted_cons.mp hsort).2
    rw [dedup_after]
    by_cases hk : sameKey x y
    · rw [if_pos hk]
      have hy : hasKey k1 k2 y = false := not_hasKey_sameKey k1 k2 x y hk hx
      rw [List.filter_cons, hy]
      simp only [Bool.false_eq_true, if_false]
      refine ih x ?_ hx
      rw [List.sorted_cons]
      exact ⟨fun b hb => (List.sorted_cons.mp hsort).1 b (List.mem_cons_of_mem y hb),
        (List.sorted_cons.mp hsort2).2⟩
    · rw [if_neg hk]
      by_cases hy : hasKey k1 k2 y = true
      · rw [List.filter_cons, hy, List.filter_cons, hy]
        simp only [if_true]
        rw [dedup_after_filter_of_key k1 k2 ys y hsort2 hy]
        rfl
      · have hyf : hasKey k1 k2 y = false := Bool.eq_false_iff.mpr hy
        rw [List.filter_cons, hyf, List.filter_cons, hyf]
        simp only [Bool.false_eq_true, if_false]
        exact ih y hsort2 hyf

theorem dedup_filter_take_one {V : Type} (k1 k2 : Nat) (s : List (NNCdata V))
    (hsort : List.Sorted nncLe s) :
    (dedup_consecutive s).filter (hasKey k1 k2) = (s.filter (hasKey k1 k2)).take 1 := by
  cases s with
  | nil => rfl
  | cons x xs =>
    rw [dedup_consecutive]
    by_cases hx : hasKey k1 k2 x = true
    · rw [List.filter_cons, hx, List.filter_cons, hx]
      simp only [if_true]
      rw [dedup_after_filter_of_key k1 k2 xs x hsort hx]
      rfl
    · have hxf : hasKey k1 k2 x = false := Bool.eq_false_iff.mpr hx
      rw [List.filter_cons, hxf, List.filter_cons, hxf]
      simp only [Bool.false_eq_true, if_false]
      exact dedup_after_filter_not_key k1 k2 xs x hsort hxf

/-- C4: for every key K whose surviving replacement (`EDITNNCR`) records are,
in declaration order, v1, v2, v3 (v3 last), the final `replacementOverlay`
contains exactly one entry for K and its value is v3 — regardless of how
records for other keys are interleaved between them and regardless of the
keyword occurrence they appear in (the hypothesis constrains only the
K-entries of the flattened declaration-order stream). -/
theorem C4_last_replacement_wins {V : Type} [Mul V] [Zero V] [One V] [DecidableEq V]
    (grid : Grid) (deck : Deck V) (k1 k2 : Nat) (v1 v2 v3 : V)
    (hK : (keyword_entries (editr_record grid) deck.editnncr).filter (hasKey k1 k2) =
      [⟨k1, k2, v1⟩, ⟨k1, k2, v2⟩, ⟨k1, k2, v3⟩]) :
    ((NNC.construct grid deck).m_editr).filter (hasKey k1 k2) = [⟨k1, k2, v3⟩] := by
  have hmr : (NNC.construct grid deck).m_editr =
      (NNC.load_editr_lists grid
        ((load_edit_merge (NNC.load_input grid deck.nnc)
          (NNC.nnc_edit_sorted grid deck.editnnc)).2) deck.editnncr).2 := rfl
  have hne : keyword_entries (editr_record grid) deck.editnncr ≠ [] := by
    intro hq
    rw [hq] at hK
    exact absurd hK (by simp)
  have hreve : ((keyword_entries (editr_record grid) deck.editnncr).reverse).isEmpty = false := by
    rw [List.isEmpty_eq_false_iff_exists_mem]
    obtain ⟨a, ha⟩ := List.exists_mem_of_ne_nil _ hne
    exact ⟨a, List.mem_reverse.mpr ha⟩
  rw [hmr]
  unfold NNC.load_editr_lists
  dsimp only
  rw [if_neg (by rw [hreve]; exact Bool.false_ne_true)]
  rw [dedup_filter_take_one k1 k2 _ (List.sorted_insertionSort nncLe _)]
  rw [filter_insertionSort, List.filter_reverse, hK]
  rfl

/-- Deck with three EDITNNCR records for the key (0,3) — values 1, 2, 3 in
declaration order — interleaved with records for the key (0,4) and split
across two keyword occurrences. -/
def lastWinsDeck : Deck Int :=
  ⟨[], [], [⟨[recA 1, recB 7, recA 2], 1⟩, ⟨[recA 3, recB 8], 2⟩]⟩

/-- Witness for C4 at the concrete deck: the overlay keeps only the
last-declared value 3 for the key (0,3). -/
theorem C4_last_replacement_wins_witness :
    ((NNC.construct testGrid5 lastWinsDeck).m_editr).filter (hasKey 0 3) = [⟨0, 3, 3⟩] :=
  C4_last_replacement_wins testGrid5 lastWinsDeck 0 3 1 2 3 (by decide)

/-! ### C5: a single multiplicative edit scales its whole matching run -/

theorem hasKey_scaleEntry {V : Type} [Mul V] (k1 k2 : Nat) (e x : NNCdata V) :
    hasKey k1 k2 (scaleEntry e x) = hasKey k1 k2 x := rfl

theorem hasKey_of_sameKey {V : Type} (k1 k2 : Nat) (x e : NNCdata V) (hk : sameKey x e)
    (he : hasKey k1 k2 e = false) : hasKey k1 k2 x = false := by
  unfold sameKey at hk
  rw [hasKey_false_iff] at *
  omega

theorem edit_step_cases {V : Type} [Mul V] [Zero V]
    (st : List (NNCdata V) × Nat × List (NNCdata V)) (e : NNCdata V) :
    (st.1[st.2.1]? = none ∧ edit_step st e = (st.1, st.2.1, NNC.add_edit st.2.2 e)) ∨
    (∃ cur, st.1[st.2.1]? = some cur ∧ sameKey cur e ∧
      edit_step st e =
        ((applyRun st.1 st.2.1 e).1, (applyRun st.1 st.2.1 e).2, st.2.2)) ∨
    (∃ cur, st.1[st.2.1]? = some cur ∧ ¬ sameKey cur e ∧
      st.1[lower_bound st.1 ⟨e.cell1, e.cell2, 0⟩]? = none ∧
      edit_step st e =
        (st.1, lower_bound st.1 ⟨e.cell1, e.cell2, 0⟩, NNC.add_edit st.2.2 e)) ∨
    (∃ cur cur2, st.1[st.2.1]? = some cur ∧ ¬ sameKey cur e ∧
      st.1[lower_bound st.1 ⟨e.cell1, e.cell2, 0⟩]? = some cur2 ∧ sameKey cur2 e ∧
      edit_step st e =
        ((applyRun st.1 (lower_bound st.1 ⟨e.cell1, e.cell2, 0⟩) e).1,
          (applyRun st.1 (lower_bound st.1 ⟨e.cell1, e.cell2, 0⟩) e).2, st.2.2)) ∨
    (∃ cur cur2, st.1[st.2.1]? = some cur ∧ ¬ sameKey cur e ∧
      st.1[lower_bound st.1 ⟨e.cell1, e.cell2, 0⟩]? = some cur2 ∧ ¬ sameKey cur2 e ∧
      edit_step st e =
        (st.1, lower_bound st.1 ⟨e.cell1, e.cell2, 0⟩, NNC.add_edit st.2.2 e)) := by
  cases h1 : st.1[st.2.1]? with
  | none =>
    left
    exact ⟨rfl, by simp only [edit_step, h1]⟩
  | some cur =>
    by_cases h2 : sameKey cur e
    · right; left
      exact ⟨cur, rfl, h2, by simp only [edit_step, h1, if_pos h2]⟩
    · cases h3 : st.1[lower_bound st.1 ⟨e.cell1, e.cell2, 0⟩]? with
      | none =>
        right; right; left
        exact ⟨cur, rfl, h2, rfl, by simp only [edit_step, h1, if_neg h2, h3]⟩
      | some cur2 =>
        by_cases h4 : sameKey cur2 e
        · right; right; right; left
          exact ⟨cur, cur2, rfl, h2, rfl, h4,
            by simp only [edit_step, h1, if_neg h2, h3, if_pos h4]⟩
        · right; right; right; right
          exact ⟨cur, cur2, rfl, h2, rfl, h4,
            by simp only [edit_step, h1, if_neg h2, h3, if_neg h4]⟩

theorem applyRun_filter_other {V : Type} [Mul V] (k1 k2 : Nat) (b : List (NNCdata V))
    (i : Nat) (e : NNCdata V) (he : hasKey k1 k2 e = false) :
    ((applyRun b i e).1).filter (hasKey k1 k2) = b.filter (hasKey k1 k2) := by
  unfold applyRun
  dsimp only
  have hrun : ((b.drop i).takeWhile fun x => decide (sameKey x e)).filter
      (hasKey k1 k2) = [] := by
    rw [List.filter_eq_nil_iff]
    intro z hz
    have hq : decide (sameKey z e) = true := by simpa using List.mem_takeWhile_imp hz
    rw [Bool.not_eq_true]
    exact hasKey_of_sameKey k1 k2 z e (of_decide_eq_true hq) he
  have hrunmap : (((b.drop i).takeWhile fun x => decide (sameKey x e)).map
      (scaleEntry e)).filter (hasKey k1 k2) = [] := by
    rw [List.filter_eq_nil_iff]
    intro z hz
    rw [List.mem_map] at hz
    obtain ⟨x, hx, hxz⟩ := hz
    have hq : decide (sameKey x e) = true := by simpa using List.mem_takeWhile_imp hx
    rw [← hxz, Bool.not_eq_true, hasKey_scaleEntry]
    exact hasKey_of_sameKey k1 k2 x e (of_decide_eq_true hq) he
  conv_rhs => rw [← List.take_append_drop i b]
  conv_rhs =>
    rw [show b.drop i =
        ((b.drop i).takeWhile fun x => decide (sameKey x e)) ++
          ((b.drop i).dropWhile fun x => decide (sameKey x e)) from
      (List.takeWhile_append_dropWhile _ _).symm]
  rw [List.filter_append, List.filter_append, List.filter_append, List.filter_append,
    hrun, hrunmap]
  simp

theorem add_edit_filter_other {V : Type} [Mul V] (k1 k2 : Nat) (m : List (NNCdata V))
    (e : NNCdata V) (he : hasKey k1 k2 e = false)
    (hm : m.filter (hasKey k1 k2) = []) :
    (NNC.add_edit m e).filter (hasKey k1 k2) = [] := by
  rw [List.filter_eq_nil_iff] at hm ⊢
  intro y hy
  rw [Bool.not_eq_true, hasKey_false_iff]
  refine add_edit_key_pred (fun c1 c2 => ¬ (c1 = k1 ∧ c2 = k2) ) m e ?_ ?_ y hy
  · intro z hz
    have hz2 := hm z hz
    rw [Bool.not_eq_true, hasKey_false_iff] at hz2
    exact hz2
  · show ¬ (e.cell1 = k1 ∧ e.cell2 = k2)
    rw [← hasKey_false_iff (V := V) k1 k2 e]
    exact he

theorem edit_step_filter_other {V : Type} [Mul V] [Zero V] (k1 k2 : Nat)
    (st : List (NNCdata V) × Nat × List (NNCdata V)) (e : NNCdata V)
    (he : hasKey k1 k2 e = false) :
    (edit_step st e).1.filter (hasKey k1 k2) = st.1.filter (hasKey k1 k2) ∧
    (st.2.2.filter (hasKey k1 k2) = [] →
      (edit_step st e).2.2.filter (hasKey k1 k2) = []) := by
  constructor
  · rcases edit_step_base st e with h | ⟨i, h⟩
    · rw [h]
    · rw [h]
      exact applyRun_filter_other k1 k2 st.1 i e he
  · intro hm
    rcases edit_step_medit st e with h | h
    · rw [h]
      exact hm
    · rw [h]
      exact add_edit_filter_other k1 k2 st.2.2 e he hm

theorem drop_length_takeWhile {V : Type} (l : List (NNCdata V)) (q : NNCdata V → Bool) :
    l.drop ((l.takeWhile q).length) = l.dropWhile q := by
  have hc := congrArg (List.drop ((l.takeWhile q).length))
    (List.takeWhile_append_dropWhile q l)
  rw [List.drop_left] at hc
  exact hc.symm

theorem hasKey_false_of_keyLt {V : Type} (k1 k2 : Nat) (e : NNCdata V)
    (he : e.cell1 < k1 ∨ (e.cell1 = k1 ∧ e.cell2 < k2)) : hasKey k1 k2 e = false := by
  rw [hasKey_false_iff]
  omega

theorem hasKey_false_of_lt_keyLt {V : Type} (k1 k2 : Nat) (x e : NNCdata V)
    (hx : nncLt x e) (he : e.cell1 < k1 ∨ (e.cell1 = k1 ∧ e.cell2 < k2)) :
    hasKey k1 k2 x = false := by
  unfold nncLt at hx
  rw [hasKey_false_iff]
  omega

theorem hasKey_false_of_lt_probe {V : Type} (k1 k2 : Nat) (x : NNCdata V) (t : V)
    (hx : nncLt x ⟨k1, k2, t⟩) : hasKey k1 k2 x = false := by
  unfold nncLt at hx
  rw [hasKey_false_iff]
  dsimp only at hx
  omega

theorem mem_take_lower_bound {V : Type} (k1 k2 : Nat) (b : List (NNCdata V)) (t : V)
    (x : NNCdata V) (hx : x ∈ b.take (lower_bound b ⟨k1, k2, t⟩)) :
    hasKey k1 k2 x = false := by
  unfold lower_bound at hx
  rw [take_length_takeWhile] at hx
  have hq : decide (nncLt x ⟨k1, k2, t⟩) = true := by
    simpa using List.mem_takeWhile_imp hx
  exact hasKey_false_of_lt_probe k1 k2 x t (of_decide_eq_true hq)

theorem mem_take_lower_bound_keyLt {V : Type} [Zero V] (k1 k2 : Nat) (b : List (NNCdata V))
    (e : NNCdata V) (he : e.cell1 < k1 ∨ (e.cell1 = k1 ∧ e.cell2 < k2))
    (x : NNCdata V) (hx : x ∈ b.take (lower_bound b ⟨e.cell1, e.cell2, 0⟩)) :
    hasKey k1 k2 x = false := by
  unfold lower_bound at hx
  rw [take_length_takeWhile] at hx
  have hq : decide (nncLt x ⟨e.cell1, e.cell2, (0 : V)⟩) = true := by
    simpa using List.mem_takeWhile_imp hx
  have hlt : nncLt x e := by
    have := of_decide_eq_true hq
    unfold nncLt at *
    dsimp only at this
    omega
  exact hasKey_false_of_lt_keyLt k1 k2 x e hlt he

theorem take_append_append {A : Type} (l1 l2 l3 : List A) :
    ((l1 ++ l2) ++ l3).take (l1.length + l2.length) = l1 ++ l2 := by
  rw [List.append_assoc, List.take_add, List.take_left, List.drop_left, List.take_left]

theorem applyRun_take_no_key {V : Type} [Mul V] (k1 k2 : Nat) (b : List (NNCdata V))
    (i : Nat) (e : NNCdata V) (hi : i ≤ b.length)
    (hpre : ∀ x ∈ b.take i, hasKey k1 k2 x = false)
    (hrun : hasKey k1 k2 e = false) :
    ∀ x ∈ (applyRun b i e).1.take (applyRun b i e).2, hasKey k1 k2 x = false := by
  intro x hx
  unfold applyRun at hx
  dsimp only at hx
  have hlenA : (b.take i).length = i := by
    rw [List.length_take]
    omega
  have hcur : i + ((b.drop i).takeWhile fun z => decide (sameKey z e)).length =
      (b.take i).length +
        (((b.drop i).takeWhile fun z => decide (sameKey z e)).map (scaleEntry e)).length := by
    rw [hlenA, List.length_map]
  rw [hcur, take_append_append] at hx
  rcases List.mem_append.mp hx with hxA | hxB
  · exact hpre x hxA
  · rw [List.mem_map] at hxB
    obtain ⟨z, hz, hzx⟩ := hxB
    have hq : decide (sameKey z e) = true := by simpa using List.mem_takeWhile_imp hz
    rw [← hzx, hasKey_scaleEntry]
    exact hasKey_of_sameKey k1 k2 z e (of_decide_eq_true hq) hrun

theorem edit_step_take_no_key {V : Type} [Mul V] [Zero V] (k1 k2 : Nat)
    (st : List (NNCdata V) × Nat × List (NNCdata V)) (e : NNCdata V)
    (he : e.cell1 < k1 ∨ (e.cell1 = k1 ∧ e.cell2 < k2))
    (hc : ∀ x ∈ st.1.take st.2.1, hasKey k1 k2 x = false) :
    ∀ x ∈ (edit_step st e).1.take (edit_step st e).2.1, hasKey k1 k2 x = false := by
  rcases edit_step_cases st e with ⟨h1, heq⟩ | ⟨cur, h1, h2, heq⟩ |
    ⟨cur, h1, h2, h3, heq⟩ | ⟨cur, cur2, h1, h2, h3, h4, heq⟩ |
    ⟨cur, cur2, h1, h2, h3, h4, heq⟩
  · rw [heq]
    exact hc
  · rw [heq]
    have hi : st.2.1 ≤ st.1.length := by
      obtain ⟨hlt, -⟩ := List.getElem?_eq_some_iff.mp h1
      omega
    exact applyRun_take_no_key k1 k2 st.1 st.2.1 e hi hc (hasKey_false_of_keyLt k1 k2 e he)
  · rw [heq]
    exact fun x hx => mem_take_lower_bound_keyLt k1 k2 st.1 e he x hx
  · rw [heq]
    have hi : lower_bound st.1 ⟨e.cell1, e.cell2, 0⟩ ≤ st.1.length := by
      obtain ⟨hlt, -⟩ := List.getElem?_eq_some_iff.mp h3
      omega
    exact applyRun_take_no_key k1 k2 st.1 _ e hi
      (fun x hx => mem_take_lower_bound_keyLt k1 k2 st.1 e he x hx)
      (hasKey_false_of_keyLt k1 k2 e he)
  · rw [heq]
    exact fun x hx => mem_take_lower_bound_keyLt k1 k2 st.1 e he x hx

theorem merge_pre_invariant {V : Type} [Mul V] [Zero V] (k1 k2 : Nat) :
    ∀ (pre : List (NNCdata V)) (st : List (NNCdata V) × Nat × List (NNCdata V)),
      (∀ e ∈ pre, e.cell1 < k1 ∨ (e.cell1 = k1 ∧ e.cell2 < k2)) →
      (∀ x ∈ st.1.take st.2.1, hasKey k1 k2 x = false) →
      st.2.2.filter (hasKey k1 k2) = [] →
      ((∀ x ∈ (pre.foldl edit_step st).1.take (pre.foldl edit_step st).2.1,
          hasKey k1 k2 x = false) ∧
        (pre.foldl edit_step st).1.filter (hasKey k1 k2) = st.1.filter (hasKey k1 k2) ∧
        (pre.foldl edit_step st).2.2.filter (hasKey k1 k2) = [] ∧
        (pre.foldl edit_step st).1.map keyOf = st.1.map keyOf) := by
  intro pre
  induction pre with
  | nil =>
    intro st _ hc hm
    exact ⟨hc, rfl, hm, rfl⟩
  | cons e es ih =>
    intro st hpre hc hm
    have he : e.cell1 < k1 ∨ (e.cell1 = k1 ∧ e.cell2 < k2) :=
      hpre e (List.mem_cons_self e es)
    have hef : hasKey k1 k2 e = false := hasKey_false_of_keyLt k1 k2 e he
    rw [List.foldl_cons]
    have hstep := edit_step_filter_other k1 k2 st e hef
    obtain ⟨ihc, ihf, ihm, ihk⟩ := ih (edit_step st e)
      (fun z hz => hpre z (List.mem_cons_of_mem e hz))
      (edit_step_take_no_key k1 k2 st e he hc)
      (hstep.2 hm)
    refine ⟨ihc, ?_, ihm, ?_⟩
    · rw [ihf, hstep.1]
    · rw [ihk, edit_step_keys]

theorem hasKey_of_sameKey_probe {V : Type} (k1 k2 : Nat) (f : V) (x : NNCdata V)
    (h : sameKey x ⟨k1, k2, f⟩) : hasKey k1 k2 x = true := by
  unfold sameKey at h
  rw [hasKey_iff]
  dsimp only at h
  omega

theorem sameKey_probe_of_hasKey {V : Type} (k1 k2 : Nat) (f : V) (x : NNCdata V)
    (h : hasKey k1 k2 x = true) : sameKey x ⟨k1, k2, f⟩ := by
  rw [hasKey_iff] at h
  unfold sameKey
  dsimp only
  omega

theorem keyGt_of_run_end {V : Type} (k1 k2 : Nat) (f g : V) (cur z : NNCdata V)
    (h1 : sameKey cur ⟨k1, k2, f⟩) (h2 : nncLe cur z) (h3 : ¬ sameKey z ⟨k1, k2, g⟩) :
    k1 < z.cell1 ∨ (k1 = z.cell1 ∧ k2 < z.cell2) := by
  unfold sameKey at h1 h3
  unfold nncLe nncLt at h2
  dsimp only at h1 h3
  omega

theorem hasKey_false_of_gt_le {V : Type} (k1 k2 : Nat) (z y : NNCdata V)
    (h1 : k1 < z.cell1 ∨ (k1 = z.cell1 ∧ k2 < z.cell2)) (h2 : nncLe z y) :
    hasKey k1 k2 y = false := by
  unfold nncLe nncLt at h2
  rw [hasKey_false_iff]
  omega

theorem applyRun_at_key {V : Type} [Mul V] (k1 k2 : Nat) (f : V) (b : List (NNCdata V))
    (i : Nat) (hsort : List.Sorted nncLe b) (cur : NNCdata V)
    (hbi : b[i]? = some cur) (hck : sameKey cur ⟨k1, k2, f⟩)
    (hpre : ∀ x ∈ b.take i, hasKey k1 k2 x = false) :
    ((applyRun b i ⟨k1, k2, f⟩).1).filter (hasKey k1 k2) =
      (b.filter (hasKey k1 k2)).map (scaleEntry ⟨k1, k2, f⟩) := by
  obtain ⟨hlt, hbeq⟩ := List.getElem?_eq_some_iff.mp hbi
  have hdropc : b.drop i = cur :: b.drop (i + 1) := by
    rw [List.drop_eq_getElem_cons hlt, hbeq]
  have hruncons : (b.drop i).takeWhile (fun x => decide (sameKey x (⟨k1, k2, f⟩ : NNCdata V))) =
      cur :: (b.drop (i + 1)).takeWhile (fun x => decide (sameKey x (⟨k1, k2, f⟩ : NNCdata V))) := by
    rw [hdropc, List.takeWhile_cons_of_pos (by exact decide_eq_true hck)]
  have hfiltake : (b.take i).filter (hasKey k1 k2) = [] := by
    rw [List.filter_eq_nil_iff]
    intro z hz
    rw [Bool.not_eq_true]
    exact hpre z hz
  have hrunkeys : ∀ x ∈ (b.drop i).takeWhile
      (fun x => decide (sameKey x (⟨k1, k2, f⟩ : NNCdata V))), hasKey k1 k2 x = true := by
    intro x hx
    have hq : decide (sameKey x (⟨k1, k2, f⟩ : NNCdata V)) = true := by
      simpa using List.mem_takeWhile_imp hx
    exact hasKey_of_sameKey_probe k1 k2 f x (of_decide_eq_true hq)
  have hfilrun : ((b.drop i).takeWhile
      (fun x => decide (sameKey x (⟨k1, k2, f⟩ : NNCdata V)))).filter (hasKey k1 k2) =
      (b.drop i).takeWhile (fun x => decide (sameKey x (⟨k1, k2, f⟩ : NNCdata V))) :=
    List.filter_eq_self.mpr hrunkeys
  have hfilrunmap : (((b.drop i).takeWhile
      (fun x => decide (sameKey x (⟨k1, k2, f⟩ : NNCdata V)))).map
        (scaleEntry ⟨k1, k2, f⟩)).filter (hasKey k1 k2) =
      ((b.drop i).takeWhile (fun x => decide (sameKey x (⟨k1, k2, f⟩ : NNCdata V)))).map
        (scaleEntry ⟨k1, k2, f⟩) := by
    refine List.filter_eq_self.mpr ?_
    intro x hx
    rw [List.mem_map] at hx
    obtain ⟨z, hz, hzx⟩ := hx
    rw [← hzx, hasKey_scaleEntry]
    exact hrunkeys z hz
  have hfilrest : ((b.drop i).dropWhile
      (fun x => decide (sameKey x (⟨k1, k2, f⟩ : NNCdata V)))).filter (hasKey k1 k2) = [] := by
    cases hrest : (b.drop i).dropWhile
        (fun x => decide (sameKey x (⟨k1, k2, f⟩ : NNCdata V))) with
    | nil => rfl
    | cons z t =>
      have hqz : decide (sameKey z (⟨k1, k2, f⟩ : NNCdata V)) = false := by
        have hh := List.head?_dropWhile_not
          (fun x => decide (sameKey x (⟨k1, k2, f⟩ : NNCdata V))) (b.drop i)
        rw [hrest] at hh
        simpa using hh
      have hzk : ¬ sameKey z (⟨k1, k2, f⟩ : NNCdata V) := of_decide_eq_false hqz
      have hsortd : List.Sorted nncLe (b.drop i) := hsort.sublist (List.drop_sublist i b)
      have hsplit : b.drop i =
          (b.drop i).takeWhile (fun x => decide (sameKey x (⟨k1, k2, f⟩ : NNCdata V))) ++
            z :: t := by
        rw [← hrest, List.takeWhile_append_dropWhile]
      have hpw := hsortd
      rw [hsplit, List.Sorted, List.pairwise_append] at hpw
      have hcurz : nncLe cur z := by
        refine hpw.2.2 cur ?_ z (List.mem_cons_self z t)
        rw [hruncons]
        exact List.mem_cons_self _ _
      have hzgt : k1 < z.cell1 ∨ (k1 = z.cell1 ∧ k2 < z.cell2) :=
        keyGt_of_run_end k1 k2 f f cur z hck hcurz hzk
      rw [List.filter_eq_nil_iff]
      intro y hy
      rw [Bool.not_eq_true]
      rcases List.mem_cons.mp hy with hy | hy
      · rw [hy]
        exact hasKey_false_of_gt_le k1 k2 z z hzgt (by unfold nncLe nncLt; omega)
      · have hsortrest : List.Sorted nncLe (z :: t) := by
          rw [hsplit] at hsortd
          exact ((List.pairwise_append.mp hsortd).2.1 : _)
        exact hasKey_false_of_gt_le k1 k2 z y hzgt ((List.sorted_cons.mp hsortrest).1 y hy)
  have hbsplit : b = b.take i ++
      ((b.drop i).takeWhile (fun x => decide (sameKey x (⟨k1, k2, f⟩ : NNCdata V))) ++
        (b.drop i).dropWhile (fun x => decide (sameKey x (⟨k1, k2, f⟩ : NNCdata V)))) := by
    rw [List.takeWhile_append_dropWhile, List.take_append_drop]
  unfold applyRun
  dsimp only
  conv_rhs => rw [hbsplit]
  rw [List.filter_append, List.filter_append, List.filter_append, List.filter_append,
    hfiltake, hfilrun, hfilrunmap, hfilrest]
  simp

theorem filter_key_exists {V : Type} (k1 k2 : Nat) (b : List (NNCdata V))
    (hK : b.filter (hasKey k1 k2) ≠ []) : ∃ w ∈ b, hasKey k1 k2 w = true := by
  by_contra hq
  push_neg at hq
  refine hK ?_
  rw [List.filter_eq_nil_iff]
  intro a ha
  exact hq a ha

theorem edit_step_at_key {V : Type} [Mul V] [Zero V] (k1 k2 : Nat) (f : V)
    (st : List (NNCdata V) × Nat × List (NNCdata V))
    (hsort : List.Sorted nncLe st.1)
    (hK : st.1.filter (hasKey k1 k2) ≠ [])
    (hc : ∀ x ∈ st.1.take st.2.1, hasKey k1 k2 x = false) :
    (edit_step st ⟨k1, k2, f⟩).1.filter (hasKey k1 k2) =
      (st.1.filter (hasKey k1 k2)).map (scaleEntry ⟨k1, k2, f⟩) ∧
    (edit_step st ⟨k1, k2, f⟩).2.2 = st.2.2 := by
  obtain ⟨w, hwmem, hwkey⟩ := filter_key_exists k1 k2 st.1 hK
  rcases edit_step_cases st (⟨k1, k2, f⟩ : NNCdata V) with ⟨h1, heq⟩ | ⟨cur, h1, h2, heq⟩ |
    ⟨cur, h1, h2, h3, heq⟩ | ⟨cur, cur2, h1, h2, h3, h4, heq⟩ |
    ⟨cur, cur2, h1, h2, h3, h4, heq⟩
  · exfalso
    have hge : st.1.length ≤ st.2.1 := List.getElem?_eq_none_iff.mp h1
    have htake : st.1.take st.2.1 = st.1 := List.take_of_length_le hge
    rw [htake] at hc
    rw [hc w hwmem] at hwkey
    exact Bool.false_ne_true hwkey
  · rw [heq]
    exact ⟨applyRun_at_key k1 k2 f st.1 st.2.1 hsort cur h1 h2 hc, rfl⟩
  · exfalso
    have hge : st.1.length ≤ lower_bound st.1 ⟨k1, k2, 0⟩ := by
      have := List.getElem?_eq_none_iff.mp h3
      exact this
    have hlen : (st.1.takeWhile fun x =>
        decide (nncLt x (⟨k1, k2, 0⟩ : NNCdata V))).length = st.1.length := by
      have hle : (st.1.takeWhile fun x =>
          decide (nncLt x (⟨k1, k2, 0⟩ : NNCdata V))).length ≤ st.1.length :=
        (List.takeWhile_sublist _).length_le
      unfold lower_bound at hge
      omega
    have htw : st.1.takeWhile (fun x => decide (nncLt x (⟨k1, k2, 0⟩ : NNCdata V))) = st.1 := by
      have h0 := take_length_takeWhile st.1 (fun x => decide (nncLt x (⟨k1, k2, 0⟩ : NNCdata V)))
      rw [hlen, List.take_length] at h0
      exact h0.symm
    have hwlt : decide (nncLt w (⟨k1, k2, 0⟩ : NNCdata V)) = true := by
      have hmem2 : w ∈ st.1.takeWhile
          (fun x => decide (nncLt x (⟨k1, k2, 0⟩ : NNCdata V))) := by
        rw [htw]
        exact hwmem
      simpa using List.mem_takeWhile_imp hmem2
    have hw2 : hasKey k1 k2 w = false :=
      hasKey_false_of_lt_probe k1 k2 w 0 (of_decide_eq_true hwlt)
    rw [hw2] at hwkey
    exact Bool.false_ne_true hwkey
  · rw [heq]
    exact ⟨applyRun_at_key k1 k2 f st.1 _ hsort cur2 h3 h4
      (fun x hx => mem_take_lower_bound k1 k2 st.1 0 x hx), rfl⟩
  · exfalso
    have hi : lower_bound st.1 ⟨k1, k2, 0⟩ < st.1.length :=
      (List.getElem?_eq_some_iff.mp h3).1
    have hcur2 : st.1[lower_bound st.1 ⟨k1, k2, 0⟩] = cur2 :=
      (List.getElem?_eq_some_iff.mp h3).2
    have hdropc : st.1.drop (lower_bound st.1 ⟨k1, k2, 0⟩) =
        cur2 :: st.1.drop (lower_bound st.1 ⟨k1, k2, 0⟩ + 1) := by
      rw [List.drop_eq_getElem_cons hi, hcur2]
    have hdw : st.1.drop (lower_bound st.1 ⟨k1, k2, 0⟩) =
        st.1.dropWhile fun x => decide (nncLt x (⟨k1, k2, 0⟩ : NNCdata V)) := by
      unfold lower_bound
      exact drop_length_takeWhile st.1 _
    have hqcur2 : decide (nncLt cur2 (⟨k1, k2, 0⟩ : NNCdata V)) = false := by
      have hh := List.head?_dropWhile_not
        (fun x => decide (nncLt x (⟨k1, k2, 0⟩ : NNCdata V))) st.1
      rw [← hdw, hdropc] at hh
      simpa using hh
    have hcur2nlt : ¬ nncLt cur2 (⟨k1, k2, 0⟩ : NNCdata V) := of_decide_eq_false hqcur2
    have hwdrop : w ∈ st.1.drop (lower_bound st.1 ⟨k1, k2, 0⟩) := by
      have hsplit := List.take_append_drop (lower_bound st.1 ⟨k1, k2, 0⟩) st.1
      have hw2 : w ∈ st.1.take (lower_bound st.1 ⟨k1, k2, 0⟩) ∨
          w ∈ st.1.drop (lower_bound st.1 ⟨k1, k2, 0⟩) := by
        rw [← List.mem_append, hsplit]
        exact hwmem
      rcases hw2 with hw2 | hw2
      · exfalso
        rw [mem_take_lower_bound k1 k2 st.1 0 w hw2] at hwkey
        exact Bool.false_ne_true hwkey
      · exact hw2
    have hle : nncLe cur2 w := by
      rw [hdropc] at hwdrop
      rcases List.mem_cons.mp hwdrop with hw2 | hw2
      · rw [hw2]
        unfold nncLe nncLt
        omega
      · have hsortd : List.Sorted nncLe
            (cur2 :: st.1.drop (lower_bound st.1 ⟨k1, k2, 0⟩ + 1)) := by
          rw [← hdropc]
          exact hsort.sublist (List.drop_sublist _ st.1)
        exact (List.sorted_cons.mp hsortd).1 w hw2
    refine h4 ?_
    have hwK : w.cell1 = k1 ∧ w.cell2 = k2 := (hasKey_iff k1 k2 w).mp hwkey
    unfold nncLt at hcur2nlt
    unfold nncLe nncLt at hle
    unfold sameKey
    dsimp only at hcur2nlt ⊢
    omega

theorem keyLt_of_le_not_hasKey {V : Type} (k1 k2 : Nat) (f : V) (e : NNCdata V)
    (h1 : nncLe e ⟨k1, k2, f⟩) (h2 : hasKey k1 k2 e = false) :
    e.cell1 < k1 ∨ (e.cell1 = k1 ∧ e.cell2 < k2) := by
  unfold nncLe nncLt at h1
  rw [hasKey_false_iff] at h2
  dsimp only at h1
  omega

theorem merge_post_preserve {V : Type} [Mul V] [Zero V] (k1 k2 : Nat) :
    ∀ (post : List (NNCdata V)) (st : List (NNCdata V) × Nat × List (NNCdata V)),
      (∀ y ∈ post, hasKey k1 k2 y = false) →
      ((post.foldl edit_step st).1.filter (hasKey k1 k2) =
          st.1.filter (hasKey k1 k2) ∧
        (st.2.2.filter (hasKey k1 k2) = [] →
          (post.foldl edit_step st).2.2.filter (hasKey k1 k2) = [])) := by
  intro post
  induction post with
  | nil =>
    intro st _
    exact ⟨rfl, fun h => h⟩
  | cons e es ih =>
    intro st hpost
    have hef : hasKey k1 k2 e = false := hpost e (List.mem_cons_self e es)
    have hstep := edit_step_filter_other k1 k2 st e hef
    rw [List.foldl_cons]
    obtain ⟨ihf, ihm⟩ := ih (edit_step st e)
      (fun z hz => hpost z (List.mem_cons_of_mem e hz))
    refine ⟨?_, ?_⟩
    · rw [ihf, hstep.1]
    · intro hm
      exact ihm (hstep.2 hm)

theorem merge_single_edit {V : Type} [Mul V] [Zero V] (base edits : List (NNCdata V))
    (k1 k2 : Nat) (f : V)
    (hbsort : List.Sorted nncLe base)
    (hesort : List.Sorted nncLe edits)
    (hB : base.filter (hasKey k1 k2) ≠ [])
    (hE : edits.filter (hasKey k1 k2) = [⟨k1, k2, f⟩]) :
    (load_edit_merge base edits).1.filter (hasKey k1 k2) =
      (base.filter (hasKey k1 k2)).map (scaleEntry ⟨k1, k2, f⟩) ∧
    (load_edit_merge base edits).2.filter (hasKey k1 k2) = [] := by
  rw [List.filter_eq_cons_iff] at hE
  obtain ⟨pre, post, heq, hpreno, -, hpostfil⟩ := hE
  have hpostno : ∀ y ∈ post, hasKey k1 k2 y = false := by
    intro y hy
    have hq := List.filter_eq_nil_iff.mp hpostfil y hy
    rw [Bool.not_eq_true] at hq
    exact hq
  have hprelt : ∀ e ∈ pre, e.cell1 < k1 ∨ (e.cell1 = k1 ∧ e.cell2 < k2) := by
    intro e he
    have hle : nncLe e ⟨k1, k2, f⟩ := by
      rw [heq, List.Sorted, List.pairwise_append] at hesort
      exact hesort.2.2 e he ⟨k1, k2, f⟩ (List.mem_cons_self _ _)
    have hno : hasKey k1 k2 e = false := by
      rw [Bool.eq_false_iff]
      exact hpreno e he
    exact keyLt_of_le_not_hasKey k1 k2 f e hle hno
  unfold load_edit_merge
  rw [heq, List.foldl_append, List.foldl_cons]
  have hc0 : ∀ x ∈ (base, 0, ([] : List (NNCdata V))).1.take
      (base, 0, ([] : List (NNCdata V))).2.1, hasKey k1 k2 x = false := by
    intro x hx
    simp at hx
  obtain ⟨hc1, hf1, hm1, hk1⟩ := merge_pre_invariant k1 k2 pre (base, 0, []) hprelt hc0 rfl
  have hsort1 : List.Sorted nncLe (pre.foldl edit_step (base, 0, [])).1 :=
    sorted_of_keys_eq _ base hk1 hbsort
  have hK1 : (pre.foldl edit_step (base, 0, [])).1.filter (hasKey k1 k2) ≠ [] := by
    rw [hf1]
    exact hB
  obtain ⟨hat1, hat2⟩ := edit_step_at_key k1 k2 f (pre.foldl edit_step (base, 0, []))
    hsort1 hK1 hc1
  obtain ⟨hpostf, hpostm⟩ := merge_post_preserve k1 k2 post
    (edit_step (pre.foldl edit_step (base, 0, [])) ⟨k1, k2, f⟩) hpostno
  constructor
  · rw [hpostf, hat1, hf1]
  · refine hpostm ?_
    rw [hat2]
    exact hm1

/-- C5: if at merge time key K appears in `connections` (the sorted base
list) with entries `l`, and exactly one surviving multiplicative edit of
factor f targets K, then after construction every `connections` entry with
key K — in particular both entries when there are two — has its value
multiplied by f, and `multiplicativeOverlay` contains no entry for K. -/
theorem C5_edit_scales_matching_run {V : Type} [Mul V] [Zero V] [One V] [DecidableEq V]
    (grid : Grid) (deck : Deck V) (k1 k2 : Nat) (f : V) (l : List (NNCdata V))
    (hB : (NNC.load_input grid deck.nnc).filter (hasKey k1 k2) = l)
    (hlne : l ≠ [])
    (hE : (NNC.nnc_edit_sorted grid deck.editnnc).filter (hasKey k1 k2) = [⟨k1, k2, f⟩]) :
    ((NNC.construct grid deck).m_input).filter (hasKey k1 k2) =
      l.map (scaleEntry ⟨k1, k2, f⟩) ∧
    ((NNC.construct grid deck).m_edit).filter (hasKey k1 k2) = [] := by
  have hBne : (NNC.load_input grid deck.nnc).filter (hasKey k1 k2) ≠ [] := by
    rw [hB]
    exact hlne
  obtain ⟨hm1, hm2⟩ := merge_single_edit (NNC.load_input grid deck.nnc)
    (NNC.nnc_edit_sorted grid deck.editnnc) k1 k2 f
    (List.sorted_insertionSort nncLe _) (List.sorted_insertionSort nncLe _) hBne hE
  constructor
  · have hinput : (NNC.construct grid deck).m_input =
        (load_edit_merge (NNC.load_input grid deck.nnc)
          (NNC.nnc_edit_sorted grid deck.editnnc)).1 := rfl
    rw [hinput, hm1, hB]
  · rw [List.filter_eq_nil_iff]
    intro a ha
    have hamem : a ∈ (load_edit_merge (NNC.load_input grid deck.nnc)
        (NNC.nnc_edit_sorted grid deck.editnnc)).2 :=
      mem_load_editr_fst grid _ deck.editnncr a ha
    rw [Bool.not_eq_true]
    have := List.filter_eq_nil_iff.mp hm2 a hamem
    rw [Bool.not_eq_true] at this
    exact this

/-- Deck with two base connections for the key (0,4), another base connection
for (0,3), and a single surviving edit of factor 2 for (0,4). -/
def c5Deck : Deck Int := ⟨[⟨[recB 5, recA 1, recB 7], 1⟩], [⟨[recB 2], 2⟩], []⟩

/-- Witness for C5: both (0,4) entries are scaled by 2 and the overlay holds
nothing for (0,4). -/
theorem C5_edit_scales_matching_run_witness :
    ((NNC.construct testGrid5 c5Deck).m_input).filter (hasKey 0 4) =
      ([⟨0, 4, 5⟩, ⟨0, 4, 7⟩] : List (NNCdata Int)).map (scaleEntry ⟨0, 4, 2⟩) ∧
    ((NNC.construct testGrid5 c5Deck).m_edit).filter (hasKey 0 4) = [] :=
  C5_edit_scales_matching_run testGrid5 c5Deck 0 4 2 [⟨0, 4, 5⟩, ⟨0, 4, 7⟩]
    (by decide) (by decide) (by decide)
